import Mathlib

/-!
Verification development for the CodeRenew WordPress compatibility scanning
pipeline.  The Python sources under `backend/app` are shallowly embedded as
executable Lean definitions over `List Char` (PHP source text) together with
plain structures for the data model.  Regular-expression operations of the
source are embedded as explicit scanners with the same matching semantics
(leftmost, non-overlapping, with the concrete character classes of each
pattern).  External libraries (tiktoken, tenacity, pybreaker, the Anthropic
SDK, the MCP network client) are not part of the repository; where a claim
depends on their behaviour the corresponding state machine is modelled from
the specification, and the doc comment of the definition says so.
-/

/-- The newline character. -/
def nlChar : Char := Char.ofNat 10

/-- The single-quote character `'`. -/
def singleQuote : Char := Char.ofNat 39

/-- The double-quote character `"`. -/
def doubleQuote : Char := Char.ofNat 34

/-- The `#` character (PHP line comments). -/
def hashChar : Char := Char.ofNat 35

/-- Python `str` whitespace (the characters stripped by `str.strip()` /
matched by `\s`, restricted to ASCII, which is all that occurs in PHP
source handled by the pipeline). -/
def isPyWs (c : Char) : Bool :=
  c = ' ' ∨ c = Char.ofNat 9 ∨ c = nlChar ∨ c = Char.ofNat 13 ∨
    c = Char.ofNat 11 ∨ c = Char.ofNat 12

/-- The character class `[ \t]` of the whitespace-collapsing regex. -/
def isSpaceTab (c : Char) : Bool :=
  c = ' ' ∨ c = Char.ofNat 9

/-- Python `\w` (ASCII): letters, digits and underscore. -/
def isWordChar (c : Char) : Bool :=
  (Char.ofNat 97 ≤ c ∧ c ≤ Char.ofNat 122) ∨
    (Char.ofNat 65 ≤ c ∧ c ≤ Char.ofNat 90) ∨
    (Char.ofNat 48 ≤ c ∧ c ≤ Char.ofNat 57) ∨ c = Char.ofNat 95

/-- ASCII letters and underscore, the class `[a-zA-Z_]`. -/
def isIdentStart (c : Char) : Bool :=
  (Char.ofNat 97 ≤ c ∧ c ≤ Char.ofNat 122) ∨
    (Char.ofNat 65 ≤ c ∧ c ≤ Char.ofNat 90) ∨ c = Char.ofNat 95

/-- ASCII digits. -/
def isDigitChar (c : Char) : Bool :=
  Char.ofNat 48 ≤ c ∧ c ≤ Char.ofNat 57

/-- Python `text.split('\n')`: split into lines at every newline. -/
def splitNl : List Char → List (List Char)
  | [] => [[]]
  | c :: rest =>
    if c = nlChar then [] :: splitNl rest
    else
      match splitNl rest with
      | [] => [[c]]
      | l :: ls => (c :: l) :: ls

/-- Python `'\n'.join(lines)`. -/
def joinNl : List (List Char) → List Char
  | [] => []
  | [l] => l
  | l :: l2 :: ls => l ++ nlChar :: joinNl (l2 :: ls)

/-- Split a list at the first occurrence of `pat`, returning the parts
before and after it (`none` when `pat` does not occur). -/
def splitInfix (pat : List Char) : List Char → Option (List Char × List Char)
  | [] => if pat.isPrefixOf [] then some ([], []) else none
  | c :: rest =>
    if pat.isPrefixOf (c :: rest) then some ([], (c :: rest).drop pat.length)
    else (splitInfix pat rest).map fun pr => (c :: pr.1, pr.2)

/-- Python `pat in text` (substring containment). -/
def containsSub (pat l : List Char) : Bool :=
  (splitInfix pat l).isSome

/-- Python `text.split(pat)[0]`: everything before the first occurrence of
`pat` (the whole text when `pat` does not occur). -/
def takeBefore (pat l : List Char) : List Char :=
  match splitInfix pat l with
  | some pr => pr.1
  | none => l

/-- Python `text.strip()` restricted to a single line. -/
def stripWs (l : List Char) : List Char :=
  ((l.dropWhile isPyWs).reverse.dropWhile isPyWs).reverse

/-- One-pass state machine implementing `re.sub(r'[ \t]{2,}', ' ', s)`:
a maximal run of two or more spaces/tabs becomes a single space, a run of
length one is kept as it is.  The state records whether we are inside a
run and whether it has one buffered character or already at least two. -/
inductive RunState
  | outside
  | one (c : Char)
  | many
deriving DecidableEq

/-- Worker of `collapseRuns`. -/
def crGo : RunState → List Char → List Char
  | .outside, [] => []
  | .one c, [] => [c]
  | .many, [] => [' ']
  | .outside, x :: xs =>
    if isSpaceTab x then crGo (.one x) xs else x :: crGo .outside xs
  | .one c, x :: xs =>
    if isSpaceTab x then crGo .many xs else c :: x :: crGo .outside xs
  | .many, x :: xs =>
    if isSpaceTab x then crGo .many xs else ' ' :: x :: crGo .outside xs

/-- `re.sub(r'[ \t]{2,}', ' ', s)`. -/
def collapseRuns (l : List Char) : List Char :=
  crGo .outside l

/-- The lowercased `@deprecated` marker searched for by the optimizer. -/
def depMarker : List Char := "@deprecated".data

/-- Containment of the `@deprecated` marker up to lower-casing, the check
`'@deprecated' in text.lower()` of the source. -/
def containsMarker (l : List Char) : Bool :=
  containsSub depMarker (l.map Char.toLower)

/-- One-pass scanner implementing
`re.sub(r'/\*.*?\*/', replace_comment, code, flags=re.DOTALL)` of
`TokenOptimizer._remove_comments`: every leftmost-shortest `/* ... */`
region is removed unless (`keep_deprecated` and) it contains
`@deprecated` case-insensitively, in which case it is kept verbatim and
scanning resumes after it.  An unterminated `/*` is no match and is
emitted verbatim.  The first argument buffers the current candidate
comment (including its opening `/*`), `none` meaning we are outside. -/
def rbGo (keep_deprecated : Bool) : Option (List Char) → List Char → List Char
  | none, [] => []
  | some b, [] => b
  | none, c1 :: rest =>
    match rest with
    | [] => [c1]
    | c2 :: rest2 =>
      if c1 = '/' ∧ c2 = '*' then rbGo keep_deprecated (some ['/', '*']) rest2
      else c1 :: rbGo keep_deprecated none (c2 :: rest2)
  | some b, c1 :: rest =>
    match rest with
    | [] => b ++ [c1]
    | c2 :: rest2 =>
      if c1 = '*' ∧ c2 = '/' then
        (if keep_deprecated ∧ containsMarker (b ++ ['*', '/']) then b ++ ['*', '/'] else []) ++
          rbGo keep_deprecated none rest2
      else rbGo keep_deprecated (some (b ++ [c1])) (c2 :: rest2)

/-- Per-line treatment of `TokenOptimizer._remove_comments` (the loop over
`code.split('\n')`): returns the replacement line, or `none` when the line
is dropped entirely. -/
def commentLineRule (keep_deprecated : Bool) (line : List Char) : Option (List Char) :=
  if keep_deprecated ∧ containsMarker line then some line
  else if containsSub ['/', '/'] line then
    let code_part := takeBefore ['/', '/'] line
    if code_part.count singleQuote % 2 = 0 ∧ code_part.count doubleQuote % 2 = 0 then
      if stripWs code_part ≠ [] then some code_part else none
    else some line
  else if containsSub [hashChar] line ∧ ¬ [hashChar, '!'].isPrefixOf (stripWs line) then
    let code_part := takeBefore [hashChar] line
    if code_part.count singleQuote % 2 = 0 ∧ code_part.count doubleQuote % 2 = 0 then
      if stripWs code_part ≠ [] then some code_part else none
    else some line
  else some line

/-- `TokenOptimizer._remove_comments`: the per-line pass (single-line `//`
and `#` comments, with the quote-parity heuristic and `@deprecated`
preservation) followed by the `/* ... */` block-comment substitution. -/
def _remove_comments (code : List Char) (keep_deprecated : Bool := true) : List Char :=
  let afterLines := joinNl ((splitNl code).filterMap (commentLineRule keep_deprecated))
  rbGo keep_deprecated none afterLines

/-- `TokenOptimizer._collapse_whitespace`.  The source first applies
`re.sub(r'\n\s*\n\s*\n+', '\n\n', code)`; that substitution only rewrites
regions consisting of whitespace-only lines (a match starts and ends at a
newline and consists of whitespace), and the loop below drops every blank
line, so it cannot change the result and is not modelled separately. -/
def _collapse_whitespace (code : List Char) : List Char :=
  joinNl ((splitNl code).filterMap fun line =>
    let stripped := line.dropWhile isPyWs
    if stripped = [] then none
    else some (line.takeWhile isPyWs ++ collapseRuns stripped))

/-- `sep.join(pieces)` for an arbitrary separator. -/
def joinSep (sep : List Char) : List (List Char) → List Char
  | [] => []
  | [l] => l
  | l :: l2 :: ls => l ++ sep ++ joinSep sep (l2 :: ls)

/-- A matcher step transforms `(matched so far, remaining input)`, failing
when the next regex atom does not match at the current position. -/
def stepLit (lit : List Char) (st : List Char × List Char) : Option (List Char × List Char) :=
  if lit.isPrefixOf st.2 then some (st.1 ++ lit, st.2.drop lit.length) else none

/-- Case-insensitive literal step (`lit` is given lowercased), for the
patterns compiled with `re.IGNORECASE`. -/
def stepLitCi (lit : List Char) (st : List Char × List Char) : Option (List Char × List Char) :=
  let pre := st.2.take lit.length
  if pre.map Char.toLower = lit then some (st.1 ++ pre, st.2.drop lit.length) else none

/-- Single-character step. -/
def stepChar (c : Char) (st : List Char × List Char) : Option (List Char × List Char) :=
  match st.2 with
  | x :: xs => if x = c then some (st.1 ++ [x], xs) else none
  | [] => none

/-- Greedy character-class star (`p*`); deterministic because every
following regex atom of the embedded patterns is outside the class. -/
def stepStar (p : Char → Bool) (st : List Char × List Char) : Option (List Char × List Char) :=
  some (st.1 ++ st.2.takeWhile p, st.2.dropWhile p)

/-- Greedy character-class plus (`p+`). -/
def stepPlus (p : Char → Bool) (st : List Char × List Char) : Option (List Char × List Char) :=
  match st.2 with
  | x :: _ => if p x then stepStar p st else none
  | [] => none

/-- Ordered alternation of literals.  In every embedded pattern the
alternatives are pairwise prefix-incompatible, so at most one can match at
a given position and no tail backtracking can arise. -/
def stepAlt (lits : List (List Char)) (st : List Char × List Char) : Option (List Char × List Char) :=
  match lits with
  | [] => none
  | lit :: more =>
    match stepLit lit st with
    | some st' => some st'
    | none => stepAlt more st

/-- Ordered alternation of case-insensitive literals. -/
def stepAltCi (lits : List (List Char)) (st : List Char × List Char) : Option (List Char × List Char) :=
  match lits with
  | [] => none
  | lit :: more =>
    match stepLitCi lit st with
    | some st' => some st'
    | none => stepAltCi more st

/-- A matcher receives the character preceding the current position (for
`\b` word boundaries, `none` at the start of the text) and the remaining
input, and yields the matched text and the input after it. -/
abbrev Matcher := Option Char → List Char → Option (List Char × List Char)

/-- `re.finditer`: leftmost, non-overlapping matches with their start
positions.  The fuel is the input length plus one; every step consumes at
least one character, so it never runs out. -/
def scanIter (m : Matcher) : Nat → Option Char → Nat → List Char → List (Nat × List Char)
  | 0, _, _, _ => []
  | fuel + 1, prev, pos, l =>
    match m prev l with
    | some (txt, rest) =>
      if txt = [] then
        match l with
        | [] => []
        | c :: cs => scanIter m fuel (some c) (pos + 1) cs
      else (pos, txt) :: scanIter m fuel txt.getLast? (pos + txt.length) rest
    | none =>
      match l with
      | [] => []
      | c :: cs => scanIter m fuel (some c) (pos + 1) cs

/-- All matches of `m` in `l`, with positions. -/
def findIter (m : Matcher) (l : List Char) : List (Nat × List Char) :=
  scanIter m (l.length + 1) none 0 l

/-- 1-based line number of character position `pos` (the source computes
`code[:match.start()].count('\n') + 1`). -/
def lineOf (code : List Char) (pos : Nat) : Nat :=
  (code.take pos).count nlChar + 1

/-- `function\s+\w+\s*\([^)]*\)[^{]*\{` (critical-section extraction; note
the source pattern has no word boundary). -/
def mFunctionSig : Matcher := fun _ l =>
  (stepLit "function".data ([], l)).bind (stepPlus isPyWs) |>.bind (stepPlus isWordChar)
    |>.bind (stepStar isPyWs) |>.bind (stepChar '(')
    |>.bind (stepStar (fun c => c ≠ ')')) |>.bind (stepChar ')')
    |>.bind (stepStar (fun c => c ≠ Char.ofNat 123)) |>.bind (stepChar (Char.ofNat 123))

/-- `add_(action|filter)\s*\([^;]+;` (hook statements, extraction). -/
def mHookStmt : Matcher := fun _ l =>
  (stepAlt ["add_action".data, "add_filter".data] ([], l)).bind (stepStar isPyWs)
    |>.bind (stepChar '(') |>.bind (stepPlus (fun c => c ≠ ';')) |>.bind (stepChar ';')

/-- `(\$wpdb->|mysql_|mysqli_)[^;]+;` (database statements, extraction). -/
def mDbStmt : Matcher := fun _ l =>
  (stepAlt ["$wpdb->".data, "mysql_".data, "mysqli_".data] ([], l)).bind
    (stepPlus (fun c => c ≠ ';')) |>.bind (stepChar ';')

/-- `\$_(GET|POST|REQUEST|COOKIE)[^;]+;` (user-input statements, extraction). -/
def mUserInputStmt : Matcher := fun _ l =>
  (stepAlt ["$_GET".data, "$_POST".data, "$_REQUEST".data, "$_COOKIE".data] ([], l)).bind
    (stepPlus (fun c => c ≠ ';')) |>.bind (stepChar ';')

/-- `add_(action|filter)\s*\(` (hook detection in `extract_file_patterns`). -/
def mHookCall : Matcher := fun _ l =>
  (stepAlt ["add_action".data, "add_filter".data] ([], l)).bind (stepStar isPyWs)
    |>.bind (stepChar '(')

/-- `\bfunction\s+\w+\s*\(` (function counting). -/
def mFunctionDef : Matcher := fun prev l =>
  let boundary := match prev with | none => true | some c => ¬ isWordChar c
  if boundary then
    (stepLit "function".data ([], l)).bind (stepPlus isPyWs) |>.bind (stepPlus isWordChar)
      |>.bind (stepStar isPyWs) |>.bind (stepChar '(')
  else none

/-- `\bclass\s+\w+` (class counting). -/
def mClassDef : Matcher := fun prev l =>
  let boundary := match prev with | none => true | some c => ¬ isWordChar c
  if boundary then
    (stepLit "class".data ([], l)).bind (stepPlus isPyWs) |>.bind (stepPlus isWordChar)
  else none

/-- The structural fingerprint returned by
`TokenOptimizer.extract_file_patterns`. -/
structure FilePatterns where
  has_wordpress_hooks : Bool
  has_database_queries : Bool
  has_user_input : Bool
  has_deprecated_tags : Bool
  function_count : Nat
  class_count : Nat
  complexity : String
deriving DecidableEq

/-- `TokenOptimizer.extract_file_patterns`. -/
def extract_file_patterns (content : List Char) : FilePatterns :=
  let has_hooks := findIter mHookCall content ≠ []
  let has_db := containsSub "$wpdb->".data content ∨ containsSub "mysql_".data content ∨
    containsSub "mysqli_".data content
  let has_input := containsSub "$_GET[".data content ∨ containsSub "$_POST[".data content ∨
    containsSub "$_REQUEST[".data content ∨ containsSub "$_COOKIE[".data content ∨
    containsSub "$_SERVER[".data content
  let has_dep := containsMarker content
  let function_count := (findIter mFunctionDef content).length
  let class_count := (findIter mClassDef content).length
  let total_items := function_count + class_count
  let complexity := if total_items > 20 then "high" else if total_items > 10 then "medium" else "low"
  ⟨has_hooks, has_db, has_input, has_dep, function_count, class_count, complexity⟩

/-- `TokenOptimizer.count_tokens`.  The tiktoken encoder is an external
library; the modelled branch is the source's fallback estimate
`len(text) // 4` used when the encoder is unavailable. -/
def count_tokens (text : List Char) : Nat :=
  text.length / 4

/-- `TokenOptimizer._extract_critical_sections`. -/
def _extract_critical_sections (code : List Char) (patterns : FilePatterns) : List Char :=
  let lines := splitNl code
  let header := joinNl (lines.take 10)
  let fnSigs := (findIter mFunctionSig code).map fun pm =>
    pm.2 ++ "\n    // ... function body ...\n\x7d".data
  let hooks := (findIter mHookStmt code).map Prod.snd
  let dbs := if patterns.has_database_queries then (findIter mDbStmt code).map Prod.snd else []
  let inputs := if patterns.has_user_input then (findIter mUserInputStmt code).map Prod.snd else []
  joinSep "\n\n".data ([header] ++ fnSigs ++ hooks ++ dbs ++ inputs)

/-- The result record of `TokenOptimizer.optimize_code`.  The source also
returns `reduction_percent`, a floating-point ratio derived from the two
token counts; no claim depends on it and floats are not modelled. -/
structure OptimizeResult where
  optimized_code : List Char
  original_tokens : Nat
  optimized_tokens : Nat
  tokens_saved : Int
  patterns : FilePatterns
deriving DecidableEq

/-- `TokenOptimizer.optimize_code`. -/
def optimize_code (php_code : List Char) (preserve_structure : Bool := false) : OptimizeResult :=
  let original_tokens := count_tokens php_code
  let patterns := extract_file_patterns php_code
  let o1 := _remove_comments php_code true
  let o2 := _collapse_whitespace o1
  let optimized :=
    if ¬ preserve_structure ∧ o2.length > 10000 then _extract_critical_sections o2 patterns
    else o2
  let optimized_tokens := count_tokens optimized
  ⟨optimized, original_tokens, optimized_tokens,
    (original_tokens : Int) - (optimized_tokens : Int), patterns⟩

/-- `ChangeType` of `deprecation_db.py`. -/
inductive ChangeType
  | deprecated_function
  | removed_function
  | deprecated_hook
  | breaking_change
  | security_issue
deriving DecidableEq

/-- `DeprecatedItem` of `deprecation_db.py`. -/
structure DeprecatedItem where
  name : String
  deprecated_in : String
  removed_in : Option String
  replacement : Option String
  change_type : ChangeType
  severity : String
  description : String
  documentation_url : Option String := none
deriving DecidableEq

/-- The inline catalog loaded by
`WordPressDeprecationDB._load_deprecations`. -/
def deprecations : List DeprecatedItem := [
  ⟨"get_page", "3.9", some "6.1", some "get_post", .removed_function, "critical",
    "Function get_page() was deprecated in 3.9 and removed in 6.1",
    some "https://developer.wordpress.org/reference/functions/get_page/"⟩,
  ⟨"get_page_by_path", "6.3", none, some "WP_Query with pagename parameter",
    .deprecated_function, "high", "get_page_by_path() is deprecated, use WP_Query instead",
    some "https://developer.wordpress.org/reference/functions/get_page_by_path/"⟩,
  ⟨"utf8_uri_encode", "5.3", none, some "Use urlencode or rawurlencode",
    .deprecated_function, "medium", "utf8_uri_encode() is deprecated",
    some "https://developer.wordpress.org/reference/functions/utf8_uri_encode/"⟩,
  ⟨"get_page_template_slug", "4.7", none, some "get_page_template",
    .deprecated_function, "medium", "Use get_page_template() instead",
    some "https://developer.wordpress.org/reference/functions/get_page_template_slug/"⟩,
  ⟨"$.load", "5.5", some "5.9", some "Use $.on(\x27load\x27, ...)", .breaking_change, "high",
    "jQuery .load() method removed in WordPress 5.9 (jQuery 3.x)",
    some "https://api.jquery.com/load-event/"⟩,
  ⟨"$.bind", "5.5", none, some "Use $.on()", .deprecated_function, "medium",
    "jQuery .bind() is deprecated, use .on() instead",
    some "https://api.jquery.com/bind/"⟩,
  ⟨"mysql_", "3.9", some "5.5", some "Use wpdb or mysqli", .security_issue, "critical",
    "mysql_* functions are deprecated and removed, major security risk",
    some "https://www.php.net/manual/en/intro.mysql.php"⟩,
  ⟨"add_contextual_help", "3.3", none, some "get_current_screen()->add_help_tab()",
    .deprecated_hook, "medium", "Deprecated hook for adding contextual help",
    some "https://developer.wordpress.org/reference/hooks/add_contextual_help/"⟩]

/-- Value of a nonempty all-digit segment. -/
def digitsToNat? (l : List Char) : Option Nat :=
  if l ≠ [] ∧ l.all isDigitChar then
    some (l.foldl (fun acc c => acc * 10 + (c.toNat - 48)) 0)
  else none

/-- Python `int(s)` on a version segment: an optional sign followed by
digits.  (Python `int` additionally tolerates surrounding whitespace and
underscore digit separators; such forms do not occur in version strings
and are not modelled.) -/
def pyInt? (s : List Char) : Option Int :=
  match s with
  | [] => none
  | c :: rest =>
    if c = '-' then (digitsToNat? rest).map fun n => -(n : Int)
    else if c = '+' then (digitsToNat? rest).map fun n => (n : Int)
    else (digitsToNat? (c :: rest)).map fun n => (n : Int)

/-- `WordPressDeprecationDB._parse_version`: split on `.`, parse every
segment as an int; any failure yields `(0,)`. -/
def _parse_version (version : String) : List Int :=
  match (version.data.splitOn '.').mapM pyInt? with
  | some parts => parts
  | none => [0]

/-- Python tuple comparison `xs <= ys` (lexicographic, a strict prefix is
smaller). -/
def tupleLe : List Int → List Int → Bool
  | [], _ => true
  | _ :: _, [] => false
  | x :: xs, y :: ys => if x < y then true else if x = y then tupleLe xs ys else false

/-- `from_parts <= _parse_version v <= to_parts` for a version string. -/
def versionInRange (version_from version_to v : String) : Bool :=
  tupleLe (_parse_version version_from) (_parse_version v) &&
    tupleLe (_parse_version v) (_parse_version version_to)

/-- Body of the loop of `get_deprecated_in_range`: append the item when
its deprecation version is in range, then also when its removal version
is in range and it was not already collected. -/
def rangeStep (from_parts to_parts : List Int) (relevant_items : List DeprecatedItem)
    (item : DeprecatedItem) : List DeprecatedItem :=
  let deprecated_parts := _parse_version item.deprecated_in
  let r1 :=
    if tupleLe from_parts deprecated_parts = true ∧ tupleLe deprecated_parts to_parts = true then
      relevant_items ++ [item]
    else relevant_items
  match item.removed_in with
  | some removed_in =>
    let removed_parts := _parse_version removed_in
    if tupleLe from_parts removed_parts = true ∧ tupleLe removed_parts to_parts = true ∧
        item ∉ r1 then
      r1 ++ [item]
    else r1
  | none => r1

/-- `WordPressDeprecationDB.get_deprecated_in_range`. -/
def get_deprecated_in_range (version_from version_to : String) : List DeprecatedItem :=
  deprecations.foldl
    (rangeStep (_parse_version version_from) (_parse_version version_to)) []

/-- `WordPressDeprecationDB.check_function`: the `by_name` dict lookup.
The catalog names are pairwise distinct, so the first-match lookup
coincides with the comprehension-built dict of the source. -/
def check_function (function_name : String) : Option DeprecatedItem :=
  deprecations.find? fun item => item.name == function_name

/-- `WordPressDeprecationDB.get_version_summary`. -/
structure VersionSummary where
  total : Nat
  critical : Nat
  high : Nat
  medium : Nat
  low : Nat
  removed_functions : Nat
  deprecated_functions : Nat
  breaking_changes : Nat
  security_issues : Nat
deriving DecidableEq

/-- `WordPressDeprecationDB.get_version_summary`. -/
def get_version_summary (version_from version_to : String) : VersionSummary :=
  let changes := get_deprecated_in_range version_from version_to
  ⟨changes.length,
    changes.countP (fun c => c.severity == "critical"),
    changes.countP (fun c => c.severity == "high"),
    changes.countP (fun c => c.severity == "medium"),
    changes.countP (fun c => c.severity == "low"),
    changes.countP (fun c => c.change_type == .removed_function),
    changes.countP (fun c => c.change_type == .deprecated_function),
    changes.countP (fun c => c.change_type == .breaking_change),
    changes.countP (fun c => c.change_type == .security_issue)⟩

/-- Insertion into a Python dict modelled as an insertion-ordered
association list: an existing key keeps its position and gets the new
value, a new key is appended. -/
def dictInsert (m : List (String × DeprecatedItem)) (k : String) (v : DeprecatedItem) :
    List (String × DeprecatedItem) :=
  if m.any fun p => p.1 == k then m.map fun p => if p.1 == k then (k, v) else p
  else m ++ [(k, v)]

/-- The merge step of `HybridDeprecationDB.get_deprecated_in_range_async`
(lines 52-60): a dict keyed by item name is filled with the local items
and then overwritten by the MCP items, so remote entries take precedence;
the result is the dict's values. -/
def merge_by_name (local_items mcp_items : List DeprecatedItem) : List DeprecatedItem :=
  let merged_map := local_items.foldl (fun m item => dictInsert m item.name item) []
  (mcp_items.foldl (fun m item => dictInsert m item.name item) merged_map).map Prod.snd

/-- `HybridDeprecationDB.get_deprecated_in_range_async` on a cache miss.
The network call to the MCP server is external I/O and is modelled by the
parameter `mcp_items`, the decoded response list; when the call fails the
source catches the exception and uses `mcp_items = []`, degrading to
local-only data.  (A TTL cache hit returns a previously computed merge
verbatim and is not modelled separately.) -/
def get_deprecated_in_range_async (version_from version_to : String)
    (mcp_items : List DeprecatedItem) : List DeprecatedItem :=
  merge_by_name (get_deprecated_in_range version_from version_to) mcp_items

/-- Single character from a character class. -/
def stepClass (p : Char → Bool) (st : List Char × List Char) : Option (List Char × List Char) :=
  match st.2 with
  | x :: xs => if p x then some (st.1 ++ [x], xs) else none
  | [] => none

/-- `\b([a-zA-Z_][a-zA-Z0-9_]*)\s*\(` (call-site extraction in
`WordPressAnalyzer.extract_functions`); the identifier is the leading
word-character run of the match. -/
def mIdentCall : Matcher := fun prev l =>
  let boundary := match prev with | none => true | some c => ¬ isWordChar c
  if boundary then
    match l with
    | c :: _ =>
      if isIdentStart c then
        (stepPlus isWordChar ([], l)).bind (stepStar isPyWs) |>.bind (stepChar '(')
      else none
    | [] => none
  else none

/-- The control-structure denylist of `extract_functions`. -/
def control_structures : List String :=
  ["if", "while", "for", "foreach", "switch", "elseif", "array", "echo", "print",
    "isset", "empty", "unset", "die", "exit", "return"]

/-- First-occurrence deduplication.  The source computes
`list(set(functions))`, whose order is unspecified by Python; a
deterministic order is chosen here. -/
def dedupFirst (l : List String) : List String :=
  l.foldl (fun acc s => if s ∈ acc then acc else acc ++ [s]) []

/-- `WordPressAnalyzer.extract_functions`. -/
def extract_functions (php_code : List Char) : List String :=
  let found := (findIter mIdentCall php_code).map fun pm =>
    String.mk (pm.2.takeWhile isWordChar)
  dedupFirst (found.filter fun m => m ∉ control_structures)

/-- One record of `WordPressAnalyzer.find_deprecated_functions`. -/
structure DeprecatedUsage where
  function : String
  line : Nat
  deprecated_in : String
  removed_in : Option String
  replacement : Option String
  severity : String
  description : String
deriving DecidableEq

/-- `rf'\b{re.escape(func_name)}\s*\('`: the names reaching this pattern
come from `extract_functions` and consist of word characters, so the word
boundary is "previous character is not a word character". -/
def mNamedCall (name : List Char) : Matcher := fun prev l =>
  let boundary := match prev with | none => true | some c => ¬ isWordChar c
  if boundary then
    (stepLit name ([], l)).bind (stepStar isPyWs) |>.bind (stepChar '(')
  else none

/-- `WordPressAnalyzer.find_deprecated_functions`. -/
def find_deprecated_functions (php_code : List Char) : List DeprecatedUsage :=
  (extract_functions php_code).flatMap fun func_name =>
    match check_function func_name with
    | some item =>
      (findIter (mNamedCall func_name.data) php_code).map fun pm =>
        ⟨func_name, lineOf php_code pm.1, item.deprecated_in, item.removed_in,
          item.replacement, item.severity, item.description⟩
    | none => []

/-- One record of `WordPressAnalyzer.detect_security_issues`. -/
structure SecurityIssue where
  type : String
  line : Nat
  severity : String
  description : String
  code_snippet : List Char
deriving DecidableEq

/-- `WordPressAnalyzer._get_line_context`. -/
def _get_line_context (code : List Char) (line_num : Nat) (context_lines : Nat := 2) :
    List Char :=
  let lines := splitNl code
  let start := line_num - context_lines - 1
  let stop := min lines.length (line_num + context_lines)
  joinNl ((lines.drop start).take (stop - start))

/-- `\$wpdb->query\s*\(\s*["\'].*?\$` with `re.IGNORECASE`. -/
def mSqlWpdb : Matcher := fun _ l =>
  (stepLitCi "$wpdb->query".data ([], l)).bind (stepStar isPyWs) |>.bind (stepChar '(')
    |>.bind (stepStar isPyWs)
    |>.bind (stepClass fun c => c = doubleQuote ∨ c = singleQuote)
    |>.bind (stepStar fun c => c ≠ '$' ∧ c ≠ nlChar) |>.bind (stepChar '$')

/-- `mysql_query\s*\(` with `re.IGNORECASE`. -/
def mSqlMysqlQuery : Matcher := fun _ l =>
  (stepLitCi "mysql_query".data ([], l)).bind (stepStar isPyWs) |>.bind (stepChar '(')

/-- `mysqli_query\s*\(.*?\$` with `re.IGNORECASE`. -/
def mSqlMysqliQuery : Matcher := fun _ l =>
  (stepLitCi "mysqli_query".data ([], l)).bind (stepStar isPyWs) |>.bind (stepChar '(')
    |>.bind (stepStar fun c => c ≠ '$' ∧ c ≠ nlChar) |>.bind (stepChar '$')

/-- `echo\s+\$_(GET|POST|REQUEST)\[` with `re.IGNORECASE`. -/
def mXssEcho : Matcher := fun _ l =>
  (stepLitCi "echo".data ([], l)).bind (stepPlus isPyWs) |>.bind (stepLit "$_".data)
    |>.bind (stepAltCi ["get".data, "post".data, "request".data]) |>.bind (stepChar '[')

/-- `print\s+\$_(GET|POST|REQUEST)\[` with `re.IGNORECASE`. -/
def mXssPrint : Matcher := fun _ l =>
  (stepLitCi "print".data ([], l)).bind (stepPlus isPyWs) |>.bind (stepLit "$_".data)
    |>.bind (stepAltCi ["get".data, "post".data, "request".data]) |>.bind (stepChar '[')

/-- `include\s*\(\s*\$_(GET|POST|REQUEST)` with `re.IGNORECASE`. -/
def mIncInclude : Matcher := fun _ l =>
  (stepLitCi "include".data ([], l)).bind (stepStar isPyWs) |>.bind (stepChar '(')
    |>.bind (stepStar isPyWs) |>.bind (stepLit "$_".data)
    |>.bind (stepAltCi ["get".data, "post".data, "request".data])

/-- `require\s*\(\s*\$_(GET|POST|REQUEST)` with `re.IGNORECASE`. -/
def mIncRequire : Matcher := fun _ l =>
  (stepLitCi "require".data ([], l)).bind (stepStar isPyWs) |>.bind (stepChar '(')
    |>.bind (stepStar isPyWs) |>.bind (stepLit "$_".data)
    |>.bind (stepAltCi ["get".data, "post".data, "request".data])

/-- Build the issue record for one match of a security pattern. -/
def mkSecurityIssue (php_code : List Char) (ty sev desc : String) (pm : Nat × List Char) :
    SecurityIssue :=
  let line_num := lineOf php_code pm.1
  ⟨ty, line_num, sev, desc, _get_line_context php_code line_num⟩

/-- `WordPressAnalyzer.detect_security_issues`: the three SQL patterns,
then the two XSS patterns, then the two file-inclusion patterns, in
source order. -/
def detect_security_issues (php_code : List Char) : List SecurityIssue :=
  ((findIter mSqlWpdb php_code).map (mkSecurityIssue php_code "sql_injection" "critical"
      "Direct SQL query with variable interpolation - potential SQL injection")) ++
  ((findIter mSqlMysqlQuery php_code).map (mkSecurityIssue php_code "sql_injection" "critical"
      "Deprecated mysql_query usage - security risk")) ++
  ((findIter mSqlMysqliQuery php_code).map (mkSecurityIssue php_code "sql_injection" "critical"
      "Direct mysqli query with variables - use prepared statements")) ++
  ((findIter mXssEcho php_code).map (mkSecurityIssue php_code "xss" "high"
      "Direct output of user input - potential XSS")) ++
  ((findIter mXssPrint php_code).map (mkSecurityIssue php_code "xss" "high"
      "Direct output of user input - potential XSS")) ++
  ((findIter mIncInclude php_code).map (mkSecurityIssue php_code "file_inclusion" "critical"
      "Dynamic file inclusion - potential RFI/LFI")) ++
  ((findIter mIncRequire php_code).map (mkSecurityIssue php_code "file_inclusion" "critical"
      "Dynamic file inclusion - potential RFI/LFI"))

/-- The record returned by `WordPressAnalyzer.quick_scan`. -/
structure QuickScanResult where
  risk_level : String
  deprecated_functions_found : Nat
  security_issues_found : Nat
  critical_issues : Nat
  deprecated_usage : List DeprecatedUsage
  security_issues : List SecurityIssue
  version_summary : VersionSummary
deriving DecidableEq

/-- `WordPressAnalyzer.quick_scan`.  The `deprecated_items` range lookup
of the source is computed and then never used; it is reproduced here for
fidelity. -/
def quick_scan (php_code : List Char) (version_from version_to : String) : QuickScanResult :=
  let _deprecated_items := get_deprecated_in_range version_from version_to
  let deprecated_usage := find_deprecated_functions php_code
  let security_issues := detect_security_issues php_code
  let critical_count := deprecated_usage.countP (fun d => d.severity == "critical") +
    security_issues.countP (fun s => s.severity == "critical")
  let risk_level :=
    if critical_count > 0 then "critical"
    else if deprecated_usage.length > 0 ∨ security_issues.length > 0 then "warning"
    else "safe"
  ⟨risk_level, deprecated_usage.length, security_issues.length, critical_count,
    deprecated_usage, security_issues, get_version_summary version_from version_to⟩

/-- A source file as seen by `WordPressScanner._batch_files`: its on-disk
byte size (`file_path.stat().st_size`) and its estimated token count
(`_estimate_tokens_for_file`).  Reading the filesystem is external I/O,
so the two quantities are carried as data. -/
structure FileInfo where
  size : Nat
  tokens : Nat
deriving DecidableEq

/-- `settings.SCANNER_MAX_TOKENS_PER_BATCH` (`config.py`). -/
def MAX_TOKENS_PER_BATCH : Nat := 150000

/-- `CHARS_PER_TOKEN` of `WordPressScanner`. -/
def CHARS_PER_TOKEN : Nat := 4

/-- `MAX_CHARS_PER_BATCH = MAX_TOKENS_PER_BATCH * CHARS_PER_TOKEN`. -/
def MAX_CHARS_PER_BATCH : Nat := MAX_TOKENS_PER_BATCH * CHARS_PER_TOKEN

/-- The running state of the batching loop of
`WordPressScanner._batch_files`. -/
structure BatchState where
  batches : List (List FileInfo)
  current_batch : List FileInfo
  current_size : Nat
  current_tokens : Nat
deriving DecidableEq

/-- One iteration of the loop of `_batch_files`: flush the current batch
when adding the file would exceed the byte or token ceiling (only when
the current batch is nonempty), append the file, then flush when the
batch has reached 20 files. -/
def batchStep (st : BatchState) (f : FileInfo) : BatchState :=
  let would_exceed_chars := st.current_size + f.size > MAX_CHARS_PER_BATCH
  let would_exceed_tokens := st.current_tokens + f.tokens > MAX_TOKENS_PER_BATCH
  let st1 :=
    if (would_exceed_chars ∨ would_exceed_tokens) ∧ st.current_batch ≠ [] then
      BatchState.mk (st.batches ++ [st.current_batch]) [] 0 0
    else st
  let st2 := BatchState.mk st1.batches (st1.current_batch ++ [f])
    (st1.current_size + f.size) (st1.current_tokens + f.tokens)
  if st2.current_batch.length ≥ 20 then
    BatchState.mk (st2.batches ++ [st2.current_batch]) [] 0 0
  else st2

/-- `WordPressScanner._batch_files`. -/
def _batch_files (file_paths : List FileInfo) : List (List FileInfo) :=
  let st := file_paths.foldl batchStep ⟨[], [], 0, 0⟩
  if st.current_batch ≠ [] then st.batches ++ [st.current_batch] else st.batches

/-- Token sum of a batch. -/
def batchTokens (b : List FileInfo) : Nat :=
  (b.map FileInfo.tokens).sum

/-- A detected issue as consumed by
`WordPressScanner.calculate_risk_level`, which reads only
`issue.get('severity')`; the other dict keys are irrelevant to it and a
missing severity is represented by a string unequal to the severity
names. -/
structure ScanIssue where
  severity : String
deriving DecidableEq

/-- `WordPressScanner.calculate_risk_level`. -/
def calculate_risk_level (issues : List ScanIssue) : String :=
  if issues = [] then "safe"
  else
    let critical_count := issues.countP fun i => i.severity == "critical"
    let high_count := issues.countP fun i => i.severity == "high"
    if critical_count > 0 then "critical"
    else if high_count > 0 then "warning"
    else "safe"

/-- Outcome of one underlying Anthropic API call inside
`ClaudeClient._call_claude_api`. -/
inductive ApiOutcome
  | ok
  | rateLimit
  | connectionError
  | internalServerError
  | authError
  | badRequest
  | otherError
deriving DecidableEq

/-- Classification of one attempt after the `try/except` of
`_call_claude_api` (client.py lines 100-122): authentication errors, bad
requests and unexpected errors are re-raised as `ClaudeAPIError`, which
the tenacity decorator does not retry; rate-limit, connection and 5xx
errors are re-raised unchanged and match
`retry_if_exception_type((RateLimitError, APIConnectionError,
InternalServerError))`. -/
inductive AttemptClass
  | success
  | retryable
  | nonRetryableClaudeAPIError
deriving DecidableEq

/-- Attempt classification (see `AttemptClass`). -/
def classifyAttempt : ApiOutcome → AttemptClass
  | .ok => .success
  | .rateLimit => .retryable
  | .connectionError => .retryable
  | .internalServerError => .retryable
  | .authError => .nonRetryableClaudeAPIError
  | .badRequest => .nonRetryableClaudeAPIError
  | .otherError => .nonRetryableClaudeAPIError

/-- Modelled from the spec: tenacity
`wait_exponential(multiplier=1, min=2, max=30)` — the wait after failed
attempt number `n` is `2 ** n`, clamped to `[2, 30]`.  tenacity is an
external dependency; only this configuration appears in the source. -/
def waitExp (attempt_number : Nat) : Nat :=
  max 2 (min (2 ^ attempt_number) 30)

/-- The observable trace of one decorated `_call_claude_api` call:
how many times the underlying API operation was invoked, the backoff
waits slept between attempts, and the final classification. -/
structure RetryTrace where
  invocations : Nat
  waits : List Nat
  final : AttemptClass
deriving DecidableEq

/-- Modelled from the spec: the tenacity retry loop with
`stop_after_attempt(3)` and `reraise=True` — an attempt whose outcome is
retryable is retried while fewer than 3 attempts have been made, sleeping
`waitExp` between attempts; the third failure is re-raised.  The list
holds the outcome of each successive underlying invocation. -/
def tenacityGo : List ApiOutcome → Nat → RetryTrace
  | [], _ => ⟨0, [], .success⟩
  | o :: rest, attempt =>
    match classifyAttempt o with
    | .success => ⟨1, [], .success⟩
    | .nonRetryableClaudeAPIError => ⟨1, [], .nonRetryableClaudeAPIError⟩
    | .retryable =>
      if attempt ≥ 3 then ⟨1, [], .retryable⟩
      else
        let t := tenacityGo rest (attempt + 1)
        ⟨t.invocations + 1, waitExp attempt :: t.waits, t.final⟩

/-- `_call_claude_api` under its retry decorator, on a given sequence of
underlying outcomes. -/
def _call_claude_api (outcomes : List ApiOutcome) : RetryTrace :=
  tenacityGo outcomes 1

/-- The exception that reaches the circuit breaker for each outcome,
represented by its `status_code` attribute (`none` for no exception or
for an exception without that attribute): `AuthenticationError`,
`BadRequestError` and unexpected errors are wrapped as `ClaudeAPIError`,
whose `status_code` is 502 (`ExternalServiceError`, exceptions.py);
`RateLimitError` is 429, `InternalServerError` is 500,
`APIConnectionError` has no status code. -/
def breakerSeenStatus : ApiOutcome → Option Nat
  | .ok => none
  | .rateLimit => some 429
  | .connectionError => none
  | .internalServerError => some 500
  | .authError => some 502
  | .badRequest => some 502
  | .otherError => some 502

/-- The `exclude` predicate of `claude_circuit_breaker`
(circuit_breaker.py): `hasattr(e, 'status_code') and e.status_code in
(400, 401, 403, 422)`. -/
def claudeExcluded (status_code : Option Nat) : Bool :=
  match status_code with
  | some c => c = 400 ∨ c = 401 ∨ c = 403 ∨ c = 422
  | none => false

/-- Circuit-breaker state: closed with a consecutive-failure counter, or
open with the time it opened.  (Half-open is transient: it exists only
while the single probe call after the reset timeout is in flight.) -/
inductive BreakerState
  | closed (fail_counter : Nat)
  | opened (opened_at : Nat)
deriving DecidableEq

/-- What a breaker-guarded call did. -/
inductive BreakerResult
  | success
  | errored
  | rejected
deriving DecidableEq

/-- Modelled from the spec: the `pybreaker.CircuitBreaker` guarding the
Claude client — pybreaker is an external dependency and only its
configuration is in the source (`fail_max=5`, `reset_timeout=30`, the
`exclude` predicate of circuit_breaker.py).  Closed: a success resets the
failure counter; an excluded failure does not count toward the threshold;
a non-excluded failure increments it and the breaker opens on reaching 5.
Open: before `opened_at + 30` every call is rejected without invoking the
operation (the outcome argument is ignored); from `opened_at + 30` on,
exactly one probe call is let through — success closes the breaker,
failure reopens it. -/
def breaker_call (s : BreakerState) (now : Nat) (outcome : Option (Option Nat)) :
    BreakerState × BreakerResult :=
  match s with
  | .closed n =>
    match outcome with
    | none => (.closed 0, .success)
    | some sc =>
      if claudeExcluded sc then (.closed n, .errored)
      else if n + 1 ≥ 5 then (.opened now, .errored)
      else (.closed (n + 1), .errored)
  | .opened t0 =>
    if now < t0 + 30 then (.opened t0, .rejected)
    else
      match outcome with
      | none => (.closed 0, .success)
      | some _ => (.opened now, .errored)

/-- Run a sequence of breaker-guarded calls `(time, outcome)` from a
starting state. -/
def breaker_run (s : BreakerState) : List (Nat × Option (Option Nat)) → BreakerState
  | [] => s
  | (t, o) :: more => breaker_run (breaker_call s t o).1 more

/-! ### Substring toolkit for the preservation proofs -/

/-- Propositional substring containment. -/
def ContainsP (pat l : List Char) : Prop :=
  ∃ p s, l = p ++ pat ++ s

theorem containsP_of_splitInfix {pat l p s : List Char}
    (h : splitInfix pat l = some (p, s)) : l = p ++ pat ++ s := by
  induction l generalizing p s with
  | nil =>
    simp only [splitInfix] at h
    split at h
    · rename_i hpre
      rw [ List.isPrefixOf_iff_prefix] at hpre
      rcases hpre with ⟨t, ht⟩
      simp only [List.append_eq_nil] at ht
      simp only [Option.some.injEq, Prod.mk.injEq] at h
      simp [← h.1, ← h.2, ht.1]
    · exact absurd h (by simp)
  | cons c rest ih =>
    simp only [splitInfix] at h
    split at h
    · rename_i hpre
      rw [ List.isPrefixOf_iff_prefix] at hpre
      rcases hpre with ⟨t, ht⟩
      simp only [Option.some.injEq, Prod.mk.injEq] at h
      obtain ⟨hp, hs⟩ := h
      subst hp
      rw [← ht, List.drop_left] at hs
      simp [← ht, hs]
    · rcases hm : splitInfix pat rest with _ | ⟨q, r⟩ <;> rw [hm] at h
      · simp at h
      · simp only [Option.map, Option.some.injEq, Prod.mk.injEq] at h
        obtain ⟨hp, hs⟩ := h
        subst hs
        rw [← hp]
        simpa using congrArg (c :: ·) (ih hm)

theorem splitInfix_isSome_of_isPrefixOf {pat l : List Char} (h : pat.isPrefixOf l) :
    (splitInfix pat l).isSome := by
  cases l <;> simp [splitInfix, h]

theorem splitInfix_isSome_of_containsP {pat l : List Char} (h : ContainsP pat l) :
    (splitInfix pat l).isSome := by
  obtain ⟨p, s, rfl⟩ := h
  induction p with
  | nil =>
    refine splitInfix_isSome_of_isPrefixOf ?_
    rw [ List.isPrefixOf_iff_prefix]
    exact ⟨s, by simp⟩
  | cons c p' ih =>
    have hshape : (c :: p') ++ pat ++ s = c :: (p' ++ pat ++ s) := by simp
    rw [hshape]
    simp only [splitInfix]
    split
    · simp
    · simpa [Option.isSome_map] using ih

theorem containsSub_iff {pat l : List Char} : containsSub pat l = true ↔ ContainsP pat l := by
  constructor
  · intro h
    rcases hm : splitInfix pat l with _ | ⟨p, s⟩
    · simp [containsSub, hm] at h
    · exact ⟨p, s, containsP_of_splitInfix hm⟩
  · intro h
    simpa [containsSub] using splitInfix_isSome_of_containsP h

theorem containsSub_eq_false_iff {pat l : List Char} :
    containsSub pat l = false ↔ ¬ ContainsP pat l := by
  rw [← containsSub_iff]
  cases h : containsSub pat l <;> simp [h]

theorem ContainsP.append_left {pat a b : List Char} (h : ContainsP pat b) :
    ContainsP pat (a ++ b) := by
  obtain ⟨p, s, rfl⟩ := h
  exact ⟨a ++ p, s, by simp⟩

theorem ContainsP.append_right {pat a b : List Char} (h : ContainsP pat a) :
    ContainsP pat (a ++ b) := by
  obtain ⟨p, s, rfl⟩ := h
  exact ⟨p, s ++ b, by simp⟩

theorem ContainsP.cons {pat l : List Char} (c : Char) (h : ContainsP pat l) :
    ContainsP pat (c :: l) := by
  obtain ⟨p, s, rfl⟩ := h
  exact ⟨c :: p, s, by simp⟩

theorem ContainsP.of_eq {pat l l' : List Char} (h : ContainsP pat l) (he : l = l') :
    ContainsP pat l' := he ▸ h

theorem ContainsP.self (pat : List Char) : ContainsP pat pat := ⟨[], [], by simp⟩

theorem ContainsP.trans_contains {pat m l : List Char} (h : ContainsP pat m)
    (hm : ContainsP m l) : ContainsP pat l := by
  obtain ⟨p, s, rfl⟩ := h
  obtain ⟨q, r, rfl⟩ := hm
  exact ⟨q ++ p, s ++ r, by simp⟩

theorem containsP_nil_elim {pat : List Char} (hne : pat ≠ []) (h : ContainsP pat []) : False := by
  obtain ⟨p, s, hps⟩ := h
  have := List.append_eq_nil.mp (List.append_eq_nil.mp hps.symm).1
  exact hne this.2

/-- A prefix that cannot contain `c` stops before an interposed `c`. -/
theorem prefix_through_excluded {pat a b : List Char} {c : Char} (hc : c ∉ pat)
    (h : pat <+: a ++ c :: b) : pat <+: a := by
  induction pat generalizing a with
  | nil => exact List.nil_prefix
  | cons x pat' ih =>
    cases a with
    | nil =>
      rw [List.nil_append, List.cons_prefix_cons] at h
      exact absurd h.1.symm (by intro hx; exact hc (hx ▸ List.mem_cons_self x pat'))
    | cons y a' =>
      rw [List.cons_append, List.cons_prefix_cons] at h
      rw [List.cons_prefix_cons]
      exact ⟨h.1, ih (fun hm => hc (List.mem_cons_of_mem x hm)) h.2⟩

/-- An occurrence of `pat` in `a ++ c :: b` with `c ∉ pat` lies entirely in
`a` or entirely in `b`. -/
theorem containsP_append_cons_elim {pat a b : List Char} {c : Char} (hc : c ∉ pat)
    (h : ContainsP pat (a ++ c :: b)) : ContainsP pat a ∨ ContainsP pat b := by
  induction a with
  | nil =>
    obtain ⟨p, s, hps⟩ := h
    cases p with
    | nil =>
      cases pat with
      | nil => exact Or.inr ⟨[], b, by simp⟩
      | cons x pat' =>
        simp only [List.nil_append, List.cons_append, List.cons.injEq] at hps
        exact absurd (hps.1 ▸ List.mem_cons_self x pat') (hps.1 ▸ hc)
    | cons ph p' =>
      simp only [List.nil_append, List.cons_append, List.cons.injEq] at hps
      exact Or.inr ⟨p', s, hps.2⟩
  | cons y a' ih =>
    obtain ⟨p, s, hps⟩ := h
    cases p with
    | nil =>
      have hpre : pat <+: (y :: a') ++ c :: b := ⟨s, by simpa using hps.symm⟩
      exact Or.inl ((prefix_through_excluded hc hpre).elim fun t ht => ⟨[], t, by simp [← ht]⟩)
    | cons ph p' =>
      simp only [List.cons_append, List.cons.injEq] at hps
      rcases ih ⟨p', s, hps.2⟩ with h' | h'
      · exact Or.inl (h'.cons y)
      · exact Or.inr h'

theorem splitNl_ne_nil (l : List Char) : splitNl l ≠ [] := by
  cases l with
  | nil => simp [splitNl]
  | cons c rest =>
    simp only [splitNl]
    split
    · simp
    · cases splitNl rest <;> simp

theorem joinNl_splitNl (l : List Char) : joinNl (splitNl l) = l := by
  induction l with
  | nil => rfl
  | cons c rest ih =>
    by_cases hc : c = nlChar
    · subst hc
      simp only [splitNl, if_pos rfl]
      cases hs : splitNl rest with
      | nil => exact absurd hs (splitNl_ne_nil rest)
      | cons x xs => rw [hs] at ih; simp [joinNl, ih]
    · simp only [splitNl, if_neg hc]
      cases hs : splitNl rest with
      | nil => exact absurd hs (splitNl_ne_nil rest)
      | cons x xs =>
        rw [hs] at ih
        cases xs with
        | nil => simpa [joinNl] using congrArg (c :: ·) ih
        | cons y ys => simpa [joinNl] using congrArg (c :: ·) ih

theorem mem_joinNl_containsP {l : List Char} {ls : List (List Char)} (h : l ∈ ls) :
    ContainsP l (joinNl ls) := by
  induction ls with
  | nil => cases h
  | cons x ls' ih =>
    cases ls' with
    | nil =>
      rcases List.mem_singleton.mp h with rfl
      exact ⟨[], [], by simp [joinNl]⟩
    | cons y ys =>
      rcases List.mem_cons.mp h with rfl | hmem
      · exact ⟨[], nlChar :: joinNl (y :: ys), by simp [joinNl]⟩
      · obtain ⟨p, s, hps⟩ := ih hmem
        exact ⟨x ++ [nlChar] ++ p, s, by simp [joinNl, hps]⟩

theorem containsP_joinNl_elim {pat : List Char} {ls : List (List Char)}
    (hne : pat ≠ []) (hnl : nlChar ∉ pat) (h : ContainsP pat (joinNl ls)) :
    ∃ l ∈ ls, ContainsP pat l := by
  induction ls with
  | nil => exact absurd h (fun hh => containsP_nil_elim hne hh)
  | cons x ls' ih =>
    cases ls' with
    | nil => exact ⟨x, List.mem_singleton_self x, by simpa [joinNl] using h⟩
    | cons y ys =>
      have hshape : joinNl (x :: y :: ys) = x ++ nlChar :: joinNl (y :: ys) := by
        simp [joinNl]
      rw [hshape] at h
      rcases containsP_append_cons_elim hnl h with h' | h'
      · exact ⟨x, List.mem_cons_self x _, h'⟩
      · obtain ⟨l, hl, hc⟩ := ih h'
        exact ⟨l, List.mem_cons_of_mem x hl, hc⟩

/-- An occurrence of a pattern that cannot start inside an all-`w` block
lies past it. -/
theorem containsP_drop_marked {pat a b : List Char} {w : Char → Bool}
    (ha : ∀ c ∈ a, w c = true) (hp : ∀ c ∈ pat, w c = false)
    (h : ContainsP pat (a ++ b)) : ContainsP pat b := by
  induction a with
  | nil => simpa using h
  | cons x a' ih =>
    have hx : w x = true := ha x (List.mem_cons_self x a')
    obtain ⟨p, s, hps⟩ := h
    cases p with
    | nil =>
      cases pat with
      | nil => exact ⟨[], b, by simp⟩
      | cons z pat' =>
        simp only [List.cons_append, List.nil_append, List.cons.injEq] at hps
        have := hp z (List.mem_cons_self z pat')
        rw [← hps.1] at this
        rw [this] at hx
        cases hx
    | cons ph p' =>
      simp only [List.cons_append, List.cons.injEq] at hps
      exact ih (fun c hc => ha c (List.mem_cons_of_mem x hc)) ⟨p', s, hps.2⟩

/-- Facts about the `@deprecated` marker used throughout. -/
theorem depMarker_ne_nil : depMarker ≠ [] := by decide

theorem depMarker_no_slash : '/' ∉ depMarker := by decide

theorem depMarker_no_star : '*' ∉ depMarker := by decide

theorem depMarker_no_nl : nlChar ∉ depMarker := by decide

theorem depMarker_no_spaceTab : ∀ c ∈ depMarker, isSpaceTab c = false := by decide

theorem depMarker_no_ws : ∀ c ∈ depMarker, isPyWs c = false := by decide

theorem depMarker_lower : depMarker.map Char.toLower = depMarker := by decide

/-- A raw occurrence of the (lowercase) marker implies the
case-insensitive check of the source succeeds. -/
theorem containsMarker_of_containsP {l : List Char} (h : ContainsP depMarker l) :
    containsMarker l = true := by
  obtain ⟨p, s, rfl⟩ := h
  rw [containsMarker, containsSub_iff]
  exact ⟨p.map Char.toLower, s.map Char.toLower, by simp [depMarker_lower]⟩

theorem crGo_passthrough {pre tail : List Char} (h : ∀ c ∈ pre, isSpaceTab c = false) :
    crGo .outside (pre ++ tail) = pre ++ crGo .outside tail := by
  induction pre with
  | nil => rfl
  | cons x pre' ih =>
    have hx := h x (List.mem_cons_self x pre')
    simp only [List.cons_append, crGo, hx, Bool.false_eq_true, if_false]
    exact congrArg (x :: ·) (ih fun c hc => h c (List.mem_cons_of_mem x hc))

theorem crGo_preserves_marker :
    ∀ (xs : List Char) (s : RunState),
      ContainsP depMarker xs → ContainsP depMarker (crGo s xs) := by
  intro xs
  induction xs with
  | nil =>
    intro s h
    exact absurd h fun hh => containsP_nil_elim depMarker_ne_nil hh
  | cons x xs' ih =>
    intro s h
    by_cases hx : isSpaceTab x = true
    · have hxs' : ContainsP depMarker xs' := by
        obtain ⟨p, st, hps⟩ := h
        cases p with
        | nil =>
          cases hdm : depMarker with
          | nil => exact absurd hdm depMarker_ne_nil
          | cons d dm' =>
            rw [hdm] at hps
            simp only [List.nil_append, List.cons_append, List.cons.injEq] at hps
            have hmem : x ∈ depMarker := by rw [hdm, hps.1]; exact List.mem_cons_self d dm'
            rw [depMarker_no_spaceTab x hmem] at hx
            cases hx
        | cons ph p' =>
          simp only [List.cons_append, List.cons.injEq] at hps
          exact ⟨p', st, hps.2⟩
      cases s with
      | outside => simpa only [crGo, hx, if_true] using ih (.one x) hxs'
      | one c => simpa only [crGo, hx, if_true] using ih .many hxs'
      | many => simpa only [crGo, hx, if_true] using ih .many hxs'
    · have hx' : isSpaceTab x = false := by simpa using hx
      obtain ⟨p, st, hps⟩ := h
      have key : ContainsP depMarker (x :: crGo .outside xs') := by
        cases p with
        | nil =>
          cases hdm : depMarker with
          | nil => exact absurd hdm depMarker_ne_nil
          | cons d dm' =>
            rw [hdm] at hps
            simp only [List.nil_append, List.cons_append, List.cons.injEq] at hps
            have hdm'ws : ∀ c ∈ dm', isSpaceTab c = false := fun c hc =>
              depMarker_no_spaceTab c (by rw [hdm]; exact List.mem_cons_of_mem d hc)
            rw [hps.2, crGo_passthrough hdm'ws]
            exact ⟨[], crGo .outside st, by simp [hdm, hps.1]⟩
        | cons ph p' =>
          simp only [List.cons_append, List.cons.injEq] at hps
          exact (ih .outside ⟨p', st, hps.2⟩).cons x
      cases s with
      | outside => simpa only [crGo, hx', Bool.false_eq_true, if_false] using key
      | one c => simpa only [crGo, hx', Bool.false_eq_true, if_false] using key.cons c
      | many => simpa only [crGo, hx', Bool.false_eq_true, if_false] using key.cons ' '

theorem collapse_preserves_marker {y : List Char} (h : ContainsP depMarker y) :
    ContainsP depMarker (_collapse_whitespace y) := by
  have h' : ContainsP depMarker (joinNl (splitNl y)) := by
    rw [joinNl_splitNl]; exact h
  obtain ⟨line, hline, hc⟩ := containsP_joinNl_elim depMarker_ne_nil depMarker_no_nl h'
  have hsplitline : line = line.takeWhile isPyWs ++ line.dropWhile isPyWs :=
    (List.takeWhile_append_dropWhile isPyWs line).symm
  have hstripC : ContainsP depMarker (line.dropWhile isPyWs) :=
    containsP_drop_marked (fun c hc' => List.mem_takeWhile_imp hc') depMarker_no_ws
      (hsplitline ▸ hc)
  have hne : line.dropWhile isPyWs ≠ [] := by
    intro h0
    rw [h0] at hstripC
    exact containsP_nil_elim depMarker_ne_nil hstripC
  have hout : (line.takeWhile isPyWs ++ collapseRuns (line.dropWhile isPyWs)) ∈
      (splitNl y).filterMap (fun line =>
        let stripped := line.dropWhile isPyWs
        if stripped = [] then none
        else some (line.takeWhile isPyWs ++ collapseRuns stripped)) :=
    List.mem_filterMap.mpr ⟨line, hline, by simp [hne]⟩
  exact ((crGo_preserves_marker _ .outside hstripC).append_left).trans_contains
    (mem_joinNl_containsP hout)

theorem rbGo_passthrough {pre tail : List Char} (h : ∀ c ∈ pre, c ≠ '/') :
    rbGo true none (pre ++ tail) = pre ++ rbGo true none tail := by
  induction pre with
  | nil => rfl
  | cons x pre' ih =>
    have hx := h x (List.mem_cons_self x pre')
    cases hrest : pre' ++ tail with
    | nil =>
      obtain ⟨hp, ht⟩ := List.append_eq_nil.mp hrest
      subst hp; subst ht
      rfl
    | cons y r' =>
      have hcc : ¬ (x = '/' ∧ y = '*') := fun hh => hx hh.1
      simp only [List.cons_append, hrest, rbGo, hcc, if_false]
      rw [← hrest]
      exact congrArg (x :: ·) (ih fun c hc => h c (List.mem_cons_of_mem x hc))

theorem rbGo_none_cons2 (kd : Bool) (c1 c2 : Char) (rest2 : List Char) :
    rbGo kd none (c1 :: c2 :: rest2) =
      if c1 = '/' ∧ c2 = '*' then rbGo kd (some ['/', '*']) rest2
      else c1 :: rbGo kd none (c2 :: rest2) := rfl

theorem rbGo_some_cons2 (kd : Bool) (b : List Char) (c1 c2 : Char) (rest2 : List Char) :
    rbGo kd (some b) (c1 :: c2 :: rest2) =
      if c1 = '*' ∧ c2 = '/' then
        (if kd ∧ containsMarker (b ++ ['*', '/']) then b ++ ['*', '/'] else []) ++
          rbGo kd none rest2
      else rbGo kd (some (b ++ [c1])) (c2 :: rest2) := rfl

theorem rbGo_preserves_marker :
    ∀ (n : Nat) (cs : List Char), cs.length ≤ n →
      (ContainsP depMarker cs → ContainsP depMarker (rbGo true none cs)) ∧
      (∀ b, ContainsP depMarker (b ++ cs) → ContainsP depMarker (rbGo true (some b) cs)) := by
  intro n
  induction n with
  | zero =>
    intro cs hlen
    have : cs = [] := List.length_eq_zero.mp (Nat.le_zero.mp hlen)
    subst this
    exact ⟨fun h => absurd h (fun hh => containsP_nil_elim depMarker_ne_nil hh),
      fun b h => by simpa [rbGo] using h⟩
  | succ n ih =>
    intro cs hlen
    constructor
    · intro h
      match cs, hlen with
      | [], _ => exact absurd h (fun hh => containsP_nil_elim depMarker_ne_nil hh)
      | [c1], _ => simpa [rbGo] using h
      | c1 :: c2 :: rest2, hlen =>
        rw [rbGo_none_cons2]
        by_cases hcc : c1 = '/' ∧ c2 = '*'
        · obtain ⟨rfl, rfl⟩ := hcc
          rw [if_pos ⟨rfl, rfl⟩]
          refine (ih rest2 ?_).2 ['/', '*'] (by simpa using h)
          simp only [List.length_cons] at hlen
          omega
        · rw [if_neg hcc]
          obtain ⟨p, st, hps⟩ := h
          cases p with
          | nil =>
            cases hdm : depMarker with
            | nil => exact absurd hdm depMarker_ne_nil
            | cons d dm' =>
              rw [hdm] at hps
              simp only [List.nil_append, List.cons_append, List.cons.injEq] at hps
              have hdm' : ∀ c ∈ dm', c ≠ '/' := fun c hc he =>
                depMarker_no_slash (he ▸ (by rw [hdm]; exact List.mem_cons_of_mem d hc))
              rw [hps.2, rbGo_passthrough hdm']
              exact ⟨[], rbGo true none st, by simp [hdm, hps.1]⟩
          | cons ph p' =>
            simp only [List.cons_append, List.cons.injEq] at hps
            refine ContainsP.cons c1 ((ih (c2 :: rest2) ?_).1 ⟨p', st, hps.2⟩)
            simp only [List.length_cons] at hlen ⊢
            omega
    · intro b h
      match cs, hlen with
      | [], _ => simpa [rbGo] using h
      | [c1], _ => simpa [rbGo] using h
      | c1 :: c2 :: rest2, hlen =>
        rw [rbGo_some_cons2]
        have hlen2 : rest2.length ≤ n := by
          simp only [List.length_cons] at hlen
          omega
        by_cases hcc : c1 = '*' ∧ c2 = '/'
        · obtain ⟨rfl, rfl⟩ := hcc
          rw [if_pos ⟨rfl, rfl⟩]
          have hsplit : ContainsP depMarker b ∨ ContainsP depMarker rest2 := by
            have h1 := containsP_append_cons_elim depMarker_no_star
              (h.of_eq (by simp : b ++ '*' :: '/' :: rest2 = b ++ '*' :: ('/' :: rest2)))
            rcases h1 with h1 | h1
            · exact Or.inl h1
            · have h2 := containsP_append_cons_elim depMarker_no_slash
                (h1.of_eq (by simp : ('/' : Char) :: rest2 = [] ++ '/' :: rest2))
              rcases h2 with h2 | h2
              · exact absurd h2 (fun hh => containsP_nil_elim depMarker_ne_nil hh)
              · exact Or.inr h2
          rcases hsplit with hb | hr
          · rw [if_pos (show (true : Bool) = true ∧ containsMarker (b ++ ['*', '/']) = true from
              ⟨rfl, containsMarker_of_containsP hb.append_right⟩)]
            exact (hb.append_right).append_right
          · exact ((ih rest2 hlen2).1 hr).append_left
        · rw [if_neg hcc]
          refine (ih (c2 :: rest2) ?_).2 (b ++ [c1]) (h.of_eq (by simp))
          simp only [List.length_cons] at hlen ⊢
          omega

theorem remove_comments_preserves_marker {x : List Char} (h : ContainsP depMarker x) :
    ContainsP depMarker (_remove_comments x true) := by
  have h' : ContainsP depMarker (joinNl (splitNl x)) := by
    rw [joinNl_splitNl]; exact h
  obtain ⟨line, hline, hc⟩ := containsP_joinNl_elim depMarker_ne_nil depMarker_no_nl h'
  have hrule : commentLineRule true line = some line := by
    unfold commentLineRule
    rw [if_pos ⟨rfl, containsMarker_of_containsP hc⟩]
  have hmem : line ∈ (splitNl x).filterMap (commentLineRule true) :=
    List.mem_filterMap.mpr ⟨line, hline, hrule⟩
  have hjoined : ContainsP depMarker (joinNl ((splitNl x).filterMap (commentLineRule true))) :=
    hc.trans_contains (mem_joinNl_containsP hmem)
  exact (rbGo_preserves_marker _ _ le_rfl).1 hjoined

theorem optimize_code_optimized_short {x : List Char}
    (hlen : (_collapse_whitespace (_remove_comments x true)).length ≤ 10000) :
    (optimize_code x false).optimized_code =
      _collapse_whitespace (_remove_comments x true) := by
  unfold optimize_code
  simp only [Bool.not_false, true_and]
  rw [if_neg (by omega)]

theorem filterMap_eq_self {α : Type} {f : α → Option α} {ls : List α}
    (h : ∀ l ∈ ls, f l = some l) : ls.filterMap f = ls := by
  induction ls with
  | nil => rfl
  | cons x ls' ih =>
    rw [List.filterMap_cons, h x (List.mem_cons_self x ls'),
      ih fun l hl => h l (List.mem_cons_of_mem x hl)]

theorem not_containsP_line {pat y line : List Char} (hline : line ∈ splitNl y)
    (h : ¬ ContainsP pat y) : ¬ ContainsP pat line := fun hc =>
  h (hc.trans_contains ((mem_joinNl_containsP hline).of_eq (joinNl_splitNl y)))

theorem commentLineRule_id {line : List Char}
    (h1 : ¬ ContainsP ['/', '/'] line) (h2 : ¬ ContainsP [hashChar] line) :
    commentLineRule true line = some line := by
  have hb1 : containsSub ['/', '/'] line = false := containsSub_eq_false_iff.mpr h1
  have hb2 : containsSub [hashChar] line = false := containsSub_eq_false_iff.mpr h2
  unfold commentLineRule
  by_cases hm : (true = true) ∧ containsMarker line = true
  · rw [if_pos hm]
  · rw [if_neg hm, if_neg (by simp [hb1]), if_neg (by simp [hb2])]

theorem rbGo_id {cs : List Char} (h : ¬ ContainsP ['/', '*'] cs) : rbGo true none cs = cs := by
  induction cs with
  | nil => rfl
  | cons c1 rest ih =>
    cases rest with
    | nil => rfl
    | cons c2 rest2 =>
      rw [rbGo_none_cons2]
      have hcc : ¬ (c1 = '/' ∧ c2 = '*') := fun hh => h ⟨[], rest2, by simp [hh.1, hh.2]⟩
      rw [if_neg hcc]
      exact congrArg (c1 :: ·) (ih fun hc => h (hc.cons c1))

theorem remove_comments_id {y : List Char}
    (h1 : containsSub ['/', '/'] y = false) (h2 : containsSub [hashChar] y = false)
    (h3 : containsSub ['/', '*'] y = false) :
    _remove_comments y true = y := by
  unfold _remove_comments
  have hlines : (splitNl y).filterMap (commentLineRule true) = splitNl y :=
    filterMap_eq_self fun l hl => commentLineRule_id
      (not_containsP_line hl (containsSub_eq_false_iff.mp h1))
      (not_containsP_line hl (containsSub_eq_false_iff.mp h2))
  rw [hlines, joinNl_splitNl]
  exact rbGo_id (containsSub_eq_false_iff.mp h3)

theorem optimize_code_id {y : List Char}
    (h1 : containsSub ['/', '/'] y = false) (h2 : containsSub [hashChar] y = false)
    (h3 : containsSub ['/', '*'] y = false)
    (h4 : _collapse_whitespace y = y) (h5 : y.length ≤ 10000) :
    (optimize_code y false).optimized_code = y := by
  have hr : _remove_comments y true = y := remove_comments_id h1 h2 h3
  rw [optimize_code_optimized_short (by rw [hr, h4]; exact h5), hr, h4]

theorem batchTokens_append (a : List FileInfo) (f : FileInfo) :
    batchTokens (a ++ [f]) = batchTokens a + f.tokens := by
  simp [batchTokens]

theorem batchStep_count {st : BatchState} (f : FileInfo)
    (hB : ∀ b ∈ st.batches, b.length ≤ 20) (hC : st.current_batch.length < 20) :
    (∀ b ∈ (batchStep st f).batches, b.length ≤ 20) ∧
      (batchStep st f).current_batch.length < 20 := by
  simp only [batchStep]
  by_cases h1 : (st.current_size + f.size > MAX_CHARS_PER_BATCH ∨
      st.current_tokens + f.tokens > MAX_TOKENS_PER_BATCH) ∧ st.current_batch ≠ []
  · rw [if_pos h1]
    dsimp only
    rw [if_neg (by simp)]
    dsimp only
    refine ⟨fun b hb => ?_, by simp⟩
    rcases List.mem_append.mp hb with hb | hb
    · exact hB b hb
    · rw [List.mem_singleton.mp hb]
      omega
  · rw [if_neg h1]
    by_cases h2 : (st.current_batch ++ [f]).length ≥ 20
    · rw [if_pos h2]
      dsimp only
      refine ⟨fun b hb => ?_, by simp⟩
      rcases List.mem_append.mp hb with hb | hb
      · exact hB b hb
      · rw [List.mem_singleton.mp hb]
        simp only [List.length_append, List.length_singleton]
        omega
    · rw [if_neg h2]
      dsimp only
      simp only [List.length_append, List.length_singleton] at h2 ⊢
      exact ⟨hB, by omega⟩

theorem batchStep_tokens {st : BatchState} (f : FileInfo)
    (hf : f.tokens ≤ MAX_TOKENS_PER_BATCH)
    (hB : ∀ b ∈ st.batches, batchTokens b ≤ MAX_TOKENS_PER_BATCH)
    (htok : st.current_tokens = batchTokens st.current_batch)
    (hcur : batchTokens st.current_batch ≤ MAX_TOKENS_PER_BATCH) :
    (∀ b ∈ (batchStep st f).batches, batchTokens b ≤ MAX_TOKENS_PER_BATCH) ∧
      (batchStep st f).current_tokens = batchTokens (batchStep st f).current_batch ∧
      batchTokens (batchStep st f).current_batch ≤ MAX_TOKENS_PER_BATCH := by
  simp only [batchStep]
  by_cases h1 : (st.current_size + f.size > MAX_CHARS_PER_BATCH ∨
      st.current_tokens + f.tokens > MAX_TOKENS_PER_BATCH) ∧ st.current_batch ≠ []
  · rw [if_pos h1]
    dsimp only
    rw [if_neg (by simp)]
    dsimp only
    have hB' : ∀ b ∈ st.batches ++ [st.current_batch],
        batchTokens b ≤ MAX_TOKENS_PER_BATCH := by
      intro b hb
      rcases List.mem_append.mp hb with hb | hb
      · exact hB b hb
      · rw [List.mem_singleton.mp hb]; exact hcur
    exact ⟨hB', by simp [batchTokens], by simpa [batchTokens] using hf⟩
  · rw [if_neg h1]
    have hnf : batchTokens (st.current_batch ++ [f]) ≤ MAX_TOKENS_PER_BATCH := by
      rw [batchTokens_append]
      by_cases hemp : st.current_batch = []
      · simp only [hemp, batchTokens, List.map_nil, List.sum_nil, Nat.zero_add]
        exact hf
      · have hno : ¬ (st.current_size + f.size > MAX_CHARS_PER_BATCH ∨
            st.current_tokens + f.tokens > MAX_TOKENS_PER_BATCH) := fun hh => h1 ⟨hh, hemp⟩
        push_neg at hno
        rw [htok] at hno
        omega
    by_cases h2 : (st.current_batch ++ [f]).length ≥ 20
    · rw [if_pos h2]
      dsimp only
      refine ⟨fun b hb => ?_, by simp [batchTokens], by simp [batchTokens]⟩
      rcases List.mem_append.mp hb with hb | hb
      · exact hB b hb
      · rw [List.mem_singleton.mp hb]; exact hnf
    · rw [if_neg h2]
      dsimp only
      exact ⟨hB, by rw [batchTokens_append, htok], hnf⟩

theorem foldl_batchStep_count :
    ∀ (files : List FileInfo) (st : BatchState),
      (∀ b ∈ st.batches, b.length ≤ 20) → st.current_batch.length < 20 →
      (∀ b ∈ (files.foldl batchStep st).batches, b.length ≤ 20) ∧
        (files.foldl batchStep st).current_batch.length < 20 := by
  intro files
  induction files with
  | nil => exact fun st hB hC => ⟨hB, hC⟩
  | cons f files' ih =>
    intro st hB hC
    have h := batchStep_count f hB hC
    exact ih (batchStep st f) h.1 h.2

theorem foldl_batchStep_tokens :
    ∀ (files : List FileInfo) (st : BatchState),
      (∀ f ∈ files, f.tokens ≤ MAX_TOKENS_PER_BATCH) →
      (∀ b ∈ st.batches, batchTokens b ≤ MAX_TOKENS_PER_BATCH) →
      st.current_tokens = batchTokens st.current_batch →
      batchTokens st.current_batch ≤ MAX_TOKENS_PER_BATCH →
      (∀ b ∈ (files.foldl batchStep st).batches, batchTokens b ≤ MAX_TOKENS_PER_BATCH) ∧
        batchTokens (files.foldl batchStep st).current_batch ≤ MAX_TOKENS_PER_BATCH := by
  intro files
  induction files with
  | nil => exact fun st _ hB _ hcur => ⟨hB, hcur⟩
  | cons f files' ih =>
    intro st hall hB htok hcur
    have h := batchStep_tokens f (hall f (List.mem_cons_self f files')) hB htok hcur
    exact ih (batchStep st f) (fun g hg => hall g (List.mem_cons_of_mem f hg)) h.1 h.2.1 h.2.2

theorem _batch_files_count (files : List FileInfo) :
    ∀ b ∈ _batch_files files, b.length ≤ 20 := by
  intro b hb
  have h := foldl_batchStep_count files ⟨[], [], 0, 0⟩ (by simp) (by simp)
  simp only [_batch_files] at hb
  split at hb
  · rcases List.mem_append.mp hb with hb | hb
    · exact h.1 b hb
    · rw [List.mem_singleton.mp hb]
      omega
  · exact h.1 b hb

theorem _batch_files_tokens (files : List FileInfo)
    (hall : ∀ f ∈ files, f.tokens ≤ MAX_TOKENS_PER_BATCH) :
    ∀ b ∈ _batch_files files, batchTokens b ≤ MAX_TOKENS_PER_BATCH := by
  intro b hb
  have h := foldl_batchStep_tokens files ⟨[], [], 0, 0⟩ hall (by simp) (by simp [batchTokens])
    (by simp [batchTokens])
  simp only [_batch_files] at hb
  split at hb
  · rcases List.mem_append.mp hb with hb | hb
    · exact h.1 b hb
    · rw [List.mem_singleton.mp hb]
      exact h.2
  · exact h.1 b hb

/-- The membership condition of `get_deprecated_in_range`: the deprecation
version, or the removal version when present, lies in the inclusive
range. -/
def depInRangeCond (from_parts to_parts : List Int) (item : DeprecatedItem) : Prop :=
  (tupleLe from_parts (_parse_version item.deprecated_in) = true ∧
    tupleLe (_parse_version item.deprecated_in) to_parts = true) ∨
  (∃ r, item.removed_in = some r ∧ tupleLe from_parts (_parse_version r) = true ∧
    tupleLe (_parse_version r) to_parts = true)

theorem mem_rangeStep {fp tp : List Int} {acc : List DeprecatedItem} {item x : DeprecatedItem} :
    x ∈ rangeStep fp tp acc item ↔ x ∈ acc ∨ (x = item ∧ depInRangeCond fp tp item) := by
  simp only [rangeStep, depInRangeCond]
  by_cases hdep : tupleLe fp (_parse_version item.deprecated_in) = true ∧
      tupleLe (_parse_version item.deprecated_in) tp = true
  · rw [if_pos hdep]
    cases hrem : item.removed_in with
    | none =>
      dsimp only
      simp only [List.mem_append, List.mem_singleton]
      constructor
      · rintro (h | rfl)
        · exact Or.inl h
        · exact Or.inr ⟨rfl, Or.inl hdep⟩
      · rintro (h | ⟨rfl, _⟩)
        · exact Or.inl h
        · exact Or.inr rfl
    | some r =>
      dsimp only
      rw [if_neg (by
        rintro ⟨-, -, hnot⟩
        exact hnot (List.mem_append.mpr (Or.inr (List.mem_singleton_self item))))]
      simp only [List.mem_append, List.mem_singleton]
      constructor
      · rintro (h | rfl)
        · exact Or.inl h
        · exact Or.inr ⟨rfl, Or.inl hdep⟩
      · rintro (h | ⟨rfl, _⟩)
        · exact Or.inl h
        · exact Or.inr rfl
  · rw [if_neg hdep]
    cases hrem : item.removed_in with
    | none =>
      dsimp only
      constructor
      · exact Or.inl
      · rintro (h | ⟨rfl, hc | ⟨r, hr, -⟩⟩)
        · exact h
        · exact absurd hc hdep
        · cases hr
    | some r =>
      dsimp only
      by_cases hrm : tupleLe fp (_parse_version r) = true ∧ tupleLe (_parse_version r) tp = true
      · by_cases hin : item ∈ acc
        · rw [if_neg (by rintro ⟨-, -, hnot⟩; exact hnot hin)]
          constructor
          · exact Or.inl
          · rintro (h | ⟨rfl, -⟩)
            · exact h
            · exact hin
        · rw [if_pos ⟨hrm.1, hrm.2, hin⟩]
          simp only [List.mem_append, List.mem_singleton]
          constructor
          · rintro (h | rfl)
            · exact Or.inl h
            · exact Or.inr ⟨rfl, Or.inr ⟨r, rfl, hrm⟩⟩
          · rintro (h | ⟨rfl, _⟩)
            · exact Or.inl h
            · exact Or.inr rfl
      · rw [if_neg (by rintro ⟨ha, hb, -⟩; exact hrm ⟨ha, hb⟩)]
        constructor
        · exact Or.inl
        · rintro (h | ⟨rfl, hc | ⟨r', hr', hc'⟩⟩)
          · exact h
          · exact absurd hc hdep
          · cases hr'
            exact absurd hc' hrm

theorem mem_rangeFold {fp tp : List Int} :
    ∀ (L : List DeprecatedItem) (acc : List DeprecatedItem) (x : DeprecatedItem),
      x ∈ L.foldl (rangeStep fp tp) acc ↔
        x ∈ acc ∨ (x ∈ L ∧ depInRangeCond fp tp x) := by
  intro L
  induction L with
  | nil => simp
  | cons i L' ih =>
    intro acc x
    rw [List.foldl_cons, ih, mem_rangeStep]
    constructor
    · rintro ((h | ⟨rfl, hc⟩) | ⟨hmem, hc⟩)
      · exact Or.inl h
      · exact Or.inr ⟨List.mem_cons_self x L', hc⟩
      · exact Or.inr ⟨List.mem_cons_of_mem i hmem, hc⟩
    · rintro (h | ⟨hmem, hc⟩)
      · exact Or.inl (Or.inl h)
      · rcases List.mem_cons.mp hmem with rfl | hmem'
        · exact Or.inl (Or.inr ⟨rfl, hc⟩)
        · exact Or.inr ⟨hmem', hc⟩

theorem mem_get_deprecated_in_range {version_from version_to : String} {x : DeprecatedItem} :
    x ∈ get_deprecated_in_range version_from version_to ↔
      x ∈ deprecations ∧
        depInRangeCond (_parse_version version_from) (_parse_version version_to) x := by
  unfold get_deprecated_in_range
  rw [mem_rangeFold]
  simp

theorem mem_dictInsert_self (m : List (String × DeprecatedItem)) (k : String)
    (v : DeprecatedItem) : (k, v) ∈ dictInsert m k v := by
  unfold dictInsert
  by_cases h : m.any fun p => p.1 == k
  · rw [if_pos h]
    obtain ⟨p, hp, hpk⟩ := List.any_eq_true.mp h
    exact List.mem_map.mpr ⟨p, hp, by simp [hpk]⟩
  · rw [if_neg h]
    exact List.mem_append.mpr (Or.inr (List.mem_singleton_self _))

theorem mem_dictInsert_of_ne {m : List (String × DeprecatedItem)} {k k' : String}
    {v v' : DeprecatedItem} (h : k' ≠ k) :
    (k', v') ∈ dictInsert m k v ↔ (k', v') ∈ m := by
  unfold dictInsert
  by_cases hany : m.any fun p => p.1 == k
  · rw [if_pos hany]
    constructor
    · intro hmem
      obtain ⟨p, hp, hpe⟩ := List.mem_map.mp hmem
      by_cases hpk : p.1 == k
      · rw [if_pos hpk] at hpe
        exact absurd (congrArg Prod.fst hpe).symm h
      · rw [if_neg hpk] at hpe
        exact hpe ▸ hp
    · intro hmem
      refine List.mem_map.mpr ⟨(k', v'), hmem, ?_⟩
      rw [if_neg (by simpa using h)]
  · rw [if_neg hany]
    rw [List.mem_append, List.mem_singleton]
    constructor
    · rintro (hm | he)
      · exact hm
      · exact absurd (congrArg Prod.fst he) h
    · exact Or.inl

theorem mem_foldl_dictInsert_of_notin {L : List DeprecatedItem}
    {m : List (String × DeprecatedItem)} {k' : String} {v' : DeprecatedItem}
    (hk : ∀ it ∈ L, it.name ≠ k') (hmem : (k', v') ∈ m) :
    (k', v') ∈ L.foldl (fun m item => dictInsert m item.name item) m := by
  induction L generalizing m with
  | nil => exact hmem
  | cons it L' ih =>
    rw [List.foldl_cons]
    refine ih (fun g hg => hk g (List.mem_cons_of_mem it hg)) ?_
    exact (mem_dictInsert_of_ne (fun he => hk it (List.mem_cons_self it L') he.symm)).mpr hmem

theorem mem_foldl_dictInsert_of_mem {L : List DeprecatedItem}
    (hnodup : (L.map DeprecatedItem.name).Nodup) {it : DeprecatedItem} (hit : it ∈ L)
    (m : List (String × DeprecatedItem)) :
    (it.name, it) ∈ L.foldl (fun m item => dictInsert m item.name item) m := by
  induction L generalizing m with
  | nil => cases hit
  | cons x L' ih =>
    rw [List.map_cons, List.nodup_cons] at hnodup
    rcases List.mem_cons.mp hit with rfl | hit'
    · rw [List.foldl_cons]
      refine mem_foldl_dictInsert_of_notin ?_ (mem_dictInsert_self _ _ _)
      intro g hg he
      exact hnodup.1 (he ▸ List.mem_map_of_mem DeprecatedItem.name hg)
    · rw [List.foldl_cons]
      exact ih hnodup.2 hit' _
  
theorem mem_merge_by_name {local_items mcp_items : List DeprecatedItem}
    (hnodup : (mcp_items.map DeprecatedItem.name).Nodup) {it : DeprecatedItem}
    (hit : it ∈ mcp_items) : it ∈ merge_by_name local_items mcp_items := by
  unfold merge_by_name
  exact List.mem_map.mpr ⟨(it.name, it), mem_foldl_dictInsert_of_mem hnodup hit _, rfl⟩

theorem tenacityGo_stop {outs : List ApiOutcome} :
    (tenacityGo outs 3).invocations ≤ 1 ∧ (tenacityGo outs 3).waits = [] := by
  cases outs with
  | nil => exact ⟨by simp [tenacityGo], rfl⟩
  | cons o rest =>
    cases h : classifyAttempt o <;> simp [tenacityGo, h]

theorem tenacityGo_two {outs : List ApiOutcome} :
    (tenacityGo outs 2).invocations ≤ 2 ∧ (tenacityGo outs 2).waits <+: [4] := by
  cases outs with
  | nil => exact ⟨by simp [tenacityGo], List.nil_prefix⟩
  | cons o rest =>
    cases h : classifyAttempt o with
    | success => exact ⟨by simp [tenacityGo, h], by simp [tenacityGo, h, List.nil_prefix]⟩
    | nonRetryableClaudeAPIError =>
      exact ⟨by simp [tenacityGo, h], by simp [tenacityGo, h, List.nil_prefix]⟩
    | retryable =>
      have hs : (tenacityGo rest 3).invocations ≤ 1 ∧ (tenacityGo rest 3).waits = [] :=
        tenacityGo_stop
      have hw : waitExp 2 = 4 := by decide
      refine ⟨?_, ?_⟩
      · simp only [tenacityGo, h]
        norm_num
        omega
      · simp only [tenacityGo, h]
        norm_num [hw, hs.2]

theorem tenacityGo_one {outs : List ApiOutcome} :
    (tenacityGo outs 1).invocations ≤ 3 ∧ (tenacityGo outs 1).waits <+: [2, 4] := by
  cases outs with
  | nil => exact ⟨by simp [tenacityGo], List.nil_prefix⟩
  | cons o rest =>
    cases h : classifyAttempt o with
    | success => exact ⟨by simp [tenacityGo, h], by simp [tenacityGo, h, List.nil_prefix]⟩
    | nonRetryableClaudeAPIError =>
      exact ⟨by simp [tenacityGo, h], by simp [tenacityGo, h, List.nil_prefix]⟩
    | retryable =>
      have hs : (tenacityGo rest 2).invocations ≤ 2 ∧ (tenacityGo rest 2).waits <+: [4] :=
        tenacityGo_two
      have hw : waitExp 1 = 2 := by decide
      refine ⟨?_, ?_⟩
      · simp only [tenacityGo, h]
        norm_num
        omega
      · simp only [tenacityGo, h]
        norm_num [hw]
        obtain ⟨t, ht⟩ := hs.2
        exact ⟨t, by simp [← ht]⟩

/-! ### Claim theorems -/

/-- C1 counterexample: a single file whose estimated token count already
exceeds the 150,000-token ceiling is placed in a batch of its own that
exceeds the ceiling — the flush only happens when the current batch is
nonempty, so the claimed invariant fails as stated. -/
theorem C1_token_ceiling_counterexample :
    ¬ ∀ b ∈ _batch_files [⟨0, 200000⟩], batchTokens b ≤ 150000 := by
  decide

/-- C1 (amended): every batch produced by `_batch_files` holds at most 20
files; and provided every input file's estimated token count is at most
the 150,000-token ceiling, every batch's token sum is at most the
ceiling (a single file estimated above the ceiling forms its own
over-ceiling batch, which is the only way the token ceiling can be
exceeded). -/
theorem C1_batch_ceilings_amended (files : List FileInfo) :
    (∀ b ∈ _batch_files files, b.length ≤ 20) ∧
      ((∀ f ∈ files, f.tokens ≤ MAX_TOKENS_PER_BATCH) →
        ∀ b ∈ _batch_files files, batchTokens b ≤ MAX_TOKENS_PER_BATCH) :=
  ⟨_batch_files_count files, _batch_files_tokens files⟩

/-- Witness for C1 at a concrete input. -/
theorem C1_batch_ceilings_witness :
    (∀ b ∈ _batch_files [⟨100, 100⟩, ⟨50, 200⟩], b.length ≤ 20) ∧
      (∀ b ∈ _batch_files [⟨100, 100⟩, ⟨50, 200⟩], batchTokens b ≤ MAX_TOKENS_PER_BATCH) :=
  ⟨(C1_batch_ceilings_amended [⟨100, 100⟩, ⟨50, 200⟩]).1,
    (C1_batch_ceilings_amended [⟨100, 100⟩, ⟨50, 200⟩]).2 (by decide)⟩

/-- C2: for version strings `a ≤ b` under numeric tuple ordering,
`get_deprecated_in_range a b` contains exactly the catalog items whose
deprecation version, or removal version when present, lies in `[a, b]`
inclusive (versions failing numeric parsing compare as `(0,)`, which is
built into `_parse_version`). -/
theorem C2_range_membership (version_from version_to : String)
    (_h : tupleLe (_parse_version version_from) (_parse_version version_to) = true)
    (item : DeprecatedItem) :
    item ∈ get_deprecated_in_range version_from version_to ↔
      item ∈ deprecations ∧
        depInRangeCond (_parse_version version_from) (_parse_version version_to) item :=
  mem_get_deprecated_in_range

/-- Witness for C2: `get_page` (removed in 6.1) is returned for the range
`["5.0", "6.4"]`. -/
theorem C2_range_membership_witness :
    tupleLe (_parse_version "5.0") (_parse_version "6.4") = true ∧
      deprecations.get ⟨0, by decide⟩ ∈ get_deprecated_in_range "5.0" "6.4" :=
  ⟨by decide,
    (C2_range_membership "5.0" "6.4" (by decide) _).mpr
      ⟨by decide, Or.inr ⟨"6.1", by decide, by decide, by decide⟩⟩⟩

/-- C3 counterexample: a nonempty issue list containing only a
low-severity issue yields `"safe"`, so `"safe"` does not hold only for the
empty list. -/
theorem C3_safe_nonempty_counterexample :
    calculate_risk_level [⟨"low"⟩] = "safe" ∧ ([⟨"low"⟩] : List ScanIssue) ≠ [] := by
  decide

/-- C3 (amended): `calculate_risk_level` returns `"critical"` iff some
issue has critical severity, and returns `"safe"` iff no issue has
critical or high severity (in particular on the empty list). -/
theorem C3_risk_level_amended (issues : List ScanIssue) :
    (calculate_risk_level issues = "critical" ↔ ∃ i ∈ issues, i.severity = "critical") ∧
      (calculate_risk_level issues = "safe" ↔
        ∀ i ∈ issues, i.severity ≠ "critical" ∧ i.severity ≠ "high") := by
  unfold calculate_risk_level
  by_cases hemp : issues = []
  · subst hemp
    rw [if_pos rfl]
    refine ⟨⟨fun h => absurd h (by decide), fun ⟨i, hi, _⟩ => absurd hi (by simp)⟩, ?_⟩
    simp
  · rw [if_neg hemp]
    by_cases hc : 0 < issues.countP fun i => i.severity == "critical"
    · rw [if_pos hc]
      obtain ⟨i, hi, hic⟩ := List.countP_pos_iff.mp hc
      refine ⟨⟨fun _ => ⟨i, hi, by simpa using hic⟩, fun _ => rfl⟩, ?_⟩
      refine ⟨fun h => absurd h (by decide), fun hall => ?_⟩
      exact absurd (by simpa using hic) (hall i hi).1
    · rw [if_neg hc]
      have hnone : ∀ i ∈ issues, ¬ i.severity = "critical" := by
        intro i hi hic
        exact hc (List.countP_pos_iff.mpr ⟨i, hi, by simpa using hic⟩)
      by_cases hh : 0 < issues.countP fun i => i.severity == "high"
      · rw [if_pos hh]
        obtain ⟨i, hi, hih⟩ := List.countP_pos_iff.mp hh
        refine ⟨⟨fun h => absurd h (by decide), fun ⟨j, hj, hjc⟩ => absurd hjc (hnone j hj)⟩, ?_⟩
        refine ⟨fun h => absurd h (by decide), fun hall => ?_⟩
        exact absurd (by simpa using hih) (hall i hi).2
      · rw [if_neg hh]
        have hnoh : ∀ i ∈ issues, ¬ i.severity = "high" := by
          intro i hi hih
          exact hh (List.countP_pos_iff.mpr ⟨i, hi, by simpa using hih⟩)
        refine ⟨⟨fun h => absurd h (by decide), fun ⟨j, hj, hjc⟩ => absurd hjc (hnone j hj)⟩, ?_⟩
        exact ⟨fun _ => fun i hi => ⟨hnone i hi, hnoh i hi⟩, fun _ => rfl⟩

/-- C4 counterexample: `optimize_code` is not idempotent.  On
`"$a = 1; # b // c"` the first pass cuts the line at `//` and keeps the
`#`-part (the line is split at `//` first), while the second pass, seeing
no `//` any more, cuts at `#` — so re-optimizing the optimized code
changes it again. -/
theorem C4_idempotence_counterexample :
    (optimize_code (optimize_code "$a = 1; # b // c".data).optimized_code).optimized_code ≠
      (optimize_code "$a = 1; # b // c".data).optimized_code := by
  decide

/-- C4 (amended): `optimize_code` is idempotent on every input whose
first-pass output contains none of the comment markers `//`, `#`, `/*`,
is a fixed point of whitespace collapsing, and stays within the
10,000-character critical-section-extraction threshold; a second pass can
strip further only when the first pass left such a marker behind (as in
the counterexample, where a `#` comment survives behind a `//`). -/
theorem C4_idempotent_amended (x : List Char)
    (h1 : containsSub ['/', '/'] ((optimize_code x).optimized_code) = false)
    (h2 : containsSub [hashChar] ((optimize_code x).optimized_code) = false)
    (h3 : containsSub ['/', '*'] ((optimize_code x).optimized_code) = false)
    (h4 : _collapse_whitespace ((optimize_code x).optimized_code) =
      (optimize_code x).optimized_code)
    (h5 : ((optimize_code x).optimized_code).length ≤ 10000) :
    (optimize_code ((optimize_code x).optimized_code)).optimized_code =
      (optimize_code x).optimized_code :=
  optimize_code_id h1 h2 h3 h4 h5

/-- Witness for C4 at a concrete comment-free input. -/
theorem C4_idempotent_witness :
    (optimize_code ((optimize_code "$a = 1;".data).optimized_code)).optimized_code =
      (optimize_code "$a = 1;".data).optimized_code :=
  C4_idempotent_amended "$a = 1;".data (by decide) (by decide) (by decide) (by decide)
    (by decide)

/-- C5 (code bug): the circuit breaker's `exclude` list can never fire for
authentication or bad-request failures, because `_call_claude_api` wraps
`anthropic.AuthenticationError` / `BadRequestError` as `ClaudeAPIError`,
whose `status_code` is 502 (`ExternalServiceError`), not in
`(400, 401, 403, 422)` — so, contrary to the claim and to the comment in
`circuit_breaker.py`, five consecutive authentication failures do count
toward the threshold and open the breaker, after which calls are rejected
without invoking the operation. -/
theorem C5_auth_failures_trip_breaker :
    claudeExcluded (breakerSeenStatus .authError) = false ∧
      breaker_run (.closed 0)
        ([0, 1, 2, 3, 4].map fun t => (t, some (breakerSeenStatus .authError))) =
        .opened 4 ∧
      ∀ o, breaker_call (.opened 4) 10 o = (.opened 4, .rejected) := by
  refine ⟨by decide, by decide, fun o => ?_⟩
  norm_num [breaker_call]

/-- C6: in the hybrid range lookup the remote (MCP) items take precedence:
every remote item (under pairwise-distinct remote names) appears in the
merged result, both for the raw merge step and for
`get_deprecated_in_range_async`. -/
theorem C6_remote_precedence :
    (∀ (local_items mcp_items : List DeprecatedItem),
        (mcp_items.map DeprecatedItem.name).Nodup →
        ∀ it ∈ mcp_items, it ∈ merge_by_name local_items mcp_items) ∧
      (∀ (version_from version_to : String) (mcp_items : List DeprecatedItem),
        (mcp_items.map DeprecatedItem.name).Nodup →
        ∀ it ∈ mcp_items, it ∈ get_deprecated_in_range_async version_from version_to mcp_items) :=
  ⟨fun _ _ hnodup _ hit => mem_merge_by_name hnodup hit,
    fun _ _ _ hnodup _ hit => mem_merge_by_name hnodup hit⟩

/-- A local catalog entry named `f` with low severity. -/
def localItemF : DeprecatedItem :=
  ⟨"f", "5.0", none, none, .deprecated_function, "low", "local entry", none⟩

/-- A remote entry named `f` with critical severity. -/
def mcpItemF : DeprecatedItem :=
  ⟨"f", "5.0", none, none, .deprecated_function, "critical", "remote entry", none⟩

/-- Witness for C6: merging local `{f, low}` with remote `{f, critical}`
keeps the remote item, and the merged severity for `f` is `critical`. -/
theorem C6_remote_precedence_witness :
    mcpItemF ∈ merge_by_name [localItemF] [mcpItemF] ∧
      (merge_by_name [localItemF] [mcpItemF]).map DeprecatedItem.severity = ["critical"] ∧
      mcpItemF ∈ get_deprecated_in_range_async "5.0" "6.4" [mcpItemF] :=
  ⟨C6_remote_precedence.1 [localItemF] [mcpItemF] (by decide) mcpItemF (by decide),
    by decide,
    C6_remote_precedence.2 "5.0" "6.4" [mcpItemF] (by decide) mcpItemF (by decide)⟩

/-- C7 counterexample: on persistent rate-limiting the decorated call
invokes the underlying API exactly 3 times in total
(`stop_after_attempt(3)`), not 4 as "retried up to 3 times" after a first
attempt would require. -/
theorem C7_retry_count_counterexample :
    (_call_claude_api (List.replicate 4 .rateLimit)).invocations = 3 ∧
      (_call_claude_api (List.replicate 4 .rateLimit)).invocations ≠ 4 := by
  decide

/-- C7 (amended): the client makes at most 3 attempts in total (up to 2
retries) for transient failures; the backoff waits are the deterministic
prefix of `[2, 4]` seconds given by `max 2 (min (2^n) 30)` — exponential
with base 2, floor 2 s, cap 30 s, and no jitter; authentication and
malformed-request failures (wrapped as `ClaudeAPIError`) are never
retried and surface after exactly one invocation, and a successful
attempt ends the call at once. -/
theorem C7_retry_policy_amended :
    (∀ outcomes, (_call_claude_api outcomes).invocations ≤ 3) ∧
      (∀ outcomes, (_call_claude_api outcomes).waits <+: [2, 4]) ∧
      (∀ o rest, classifyAttempt o = .nonRetryableClaudeAPIError →
        _call_claude_api (o :: rest) = ⟨1, [], .nonRetryableClaudeAPIError⟩) ∧
      (∀ o rest, classifyAttempt o = .success → _call_claude_api (o :: rest) = ⟨1, [], .success⟩) := by
  refine ⟨fun outcomes => tenacityGo_one.1, fun outcomes => tenacityGo_one.2,
    fun o rest h => ?_, fun o rest h => ?_⟩
  · simp [_call_claude_api, tenacityGo, h]
  · simp [_call_claude_api, tenacityGo, h]

/-- Witness for C7: an authentication error is surfaced after a single
invocation with no retries. -/
theorem C7_retry_policy_witness :
    _call_claude_api [.authError] = ⟨1, [], .nonRetryableClaudeAPIError⟩ :=
  C7_retry_policy_amended.2.2.1 .authError [] (by decide)

/-- An 11-line input whose `@deprecated` line is the 11th: the
critical-section extraction step keeps only the first 10 lines plus
pattern-matched snippets, so the marker line is dropped. -/
def c8ExtractInput : List Char :=
  "l1;\nl2;\nl3;\nl4;\nl5;\nl6;\nl7;\nl8;\nl9;\nl10;\n// @deprecated gone".data

set_option maxRecDepth 4000 in
/-- C8 counterexample: (a) a `@deprecated` line does not reappear verbatim
in `optimize_code`'s output — whitespace collapsing rewrites it; (b) the
critical-section extraction step drops a `@deprecated` line outside the
first 10 lines entirely, losing even the marker. -/
theorem C8_marker_line_counterexample :
    (containsMarker "$a  =  1; // @deprecated old".data = true ∧
      containsSub "$a  =  1; // @deprecated old".data
        ((optimize_code "$a  =  1; // @deprecated old".data).optimized_code) = false) ∧
      (containsMarker c8ExtractInput = true ∧
        containsMarker (_extract_critical_sections c8ExtractInput
          (extract_file_patterns c8ExtractInput)) = false) := by
  decide

/-- C8 (amended): the comment-stripping and whitespace-collapsing steps of
`optimize_code` never remove the `@deprecated` marker — whenever the input
contains `@deprecated` and the stripped-and-collapsed result is within the
10,000-character extraction threshold (so extraction is not triggered),
the optimized output still contains `@deprecated`.  Verbatim preservation
of whole lines does not hold (whitespace is collapsed), and the extraction
step for larger files keeps only the first 10 lines and pattern-matched
snippets. -/
theorem C8_marker_preserved_amended (x : List Char)
    (hm : containsSub depMarker x = true)
    (hlen : (_collapse_whitespace (_remove_comments x true)).length ≤ 10000) :
    containsSub depMarker ((optimize_code x).optimized_code) = true := by
  rw [optimize_code_optimized_short hlen]
  exact containsSub_iff.mpr
    (collapse_preserves_marker (remove_comments_preserves_marker (containsSub_iff.mp hm)))

/-- Witness for C8 at a concrete input containing the marker. -/
theorem C8_marker_preserved_witness :
    containsSub depMarker
      ((optimize_code "// @deprecated old\n$a = 1;".data).optimized_code) = true :=
  C8_marker_preserved_amended "// @deprecated old\n$a = 1;".data (by decide) (by decide)

set_option maxRecDepth 8000 in
/-- C9 counterexample: 25 files of 10,000 estimated tokens each (at 4
bytes per token) are not split 20 + 5. -/
theorem C9_twenty_five_files_counterexample :
    (_batch_files (List.replicate 25 ⟨40000, 10000⟩)).map List.length ≠ [20, 5] := by
  decide

set_option maxRecDepth 8000 in
/-- C9 (amended): 25 files of 10,000 estimated tokens each are split into
2 batches of 15 and 10 files — 15 × 10,000 reaches the 150,000-token
ceiling exactly, so the 16th file starts a new batch; the split is driven
by the token cap (with zero byte sizes, where the byte cap can never
trigger, the split is the same), not by the 20-file cap. -/
theorem C9_batch_split_amended :
    (_batch_files (List.replicate 25 ⟨40000, 10000⟩)).map List.length = [15, 10] ∧
      (_batch_files (List.replicate 25 ⟨0, 10000⟩)).map List.length = [15, 10] := by
  decide

/-- C10: the static pass's deprecated-function findings do not depend on
the scanned version range — `quick_scan` produces the same
`deprecated_usage` list for any two ranges, because
`find_deprecated_functions` matches names against the knowledge base via
`check_function` without consulting the range; in particular `get_page`
(deprecated 3.9, removed 6.1) is still reported for the range
`["1.0", "1.1"]`, which both its versions lie outside. -/
theorem C10_static_pass_version_independent :
    (∀ (code : List Char) (a b a' b' : String),
      (quick_scan code a b).deprecated_usage = (quick_scan code a' b').deprecated_usage) ∧
      (quick_scan "get_page(123);".data "1.0" "1.1").deprecated_usage ≠ [] :=
  ⟨fun _ _ _ _ _ => rfl, by decide⟩
